import Mathlib

/-
Verification of the log-and-forward subsystem of the
Networked_Devices_Communication repository.

Shallow embedding conventions:
* Python `str` is modelled as `List Char` (`Str`); file offsets are
  character positions (the logs are ASCII `key=value` text, so byte and
  character offsets coincide).
* Python scalar values (`str`, `int`, `None`) appearing in records and in
  the metadata overlay are modelled by `MVal`.
* Python `dict` is modelled as an association list with unique keys kept
  in insertion order (`PyDict`); `dictInsert` mirrors `d[k] = v`
  (replace in place, else append), `dictUpdate` mirrors `d.update(new)`.
* Fallible operations (Python exceptions) return `Option`/`Except`.
-/

abbrev Str := List Char

def chars (s : String) : Str := s.data

/-- Python whitespace characters recognised by `str.strip()` (ASCII part). -/
def pyIsSpace (c : Char) : Bool :=
  c = ' ' || c = '\t' || c = '\n' || c = '\r' || c = '\x0b' || c = '\x0c'

def pyIsDigit (c : Char) : Bool := '0' ≤ c && c ≤ '9'

/-- Python `s.split(sep)` for a one-character separator:
`"".split(sep) == [""]`, and `n` separators give `n+1` parts. -/
def pySplit (sep : Char) : Str → List Str
  | [] => [[]]
  | c :: cs =>
    let rest := pySplit sep cs
    if c = sep then [] :: rest
    else
      match rest with
      | [] => [[c]]
      | p :: ps => (c :: p) :: ps

/-- Python `s.rstrip("\n")`: drop every trailing newline character. -/
def pyRstripNl (s : Str) : Str := (s.reverse.dropWhile (fun c => c = '\n')).reverse

/-- Python `s.strip()`: drop leading and trailing whitespace. -/
def pyStrip (s : Str) : Str :=
  ((s.dropWhile pyIsSpace).reverse.dropWhile pyIsSpace).reverse

/-- Scalar values held in records and in the metadata overlay
(Python `str` / `int` / `None`). -/
inductive MVal where
  | str : Str → MVal
  | int : Int → MVal
  | none : MVal
deriving DecidableEq, Repr

def digitChar : Nat → Char
  | 0 => '0' | 1 => '1' | 2 => '2' | 3 => '3' | 4 => '4'
  | 5 => '5' | 6 => '6' | 7 => '7' | 8 => '8' | _ => '9'

/-- Decimal digits of a natural number (fuel-based so that it reduces in
the kernel); `natDigitsAux (n+1) n` computes Python `str(n)`. -/
def natDigitsAux : Nat → Nat → Str
  | 0, _ => []
  | fuel + 1, n =>
    if n < 10 then [digitChar n]
    else natDigitsAux fuel (n / 10) ++ [digitChar (n % 10)]

def natDigits (n : Nat) : Str := natDigitsAux (n + 1) n

/-- Python `str(i)` for an integer. -/
def intStr (i : Int) : Str :=
  if i < 0 then '-' :: natDigits i.natAbs else natDigits i.toNat

/-- Python `str(v)` as used by f-string interpolation of record values. -/
def MVal.pyStr : MVal → Str
  | .str s => s
  | .int i => intStr i
  | .none => chars "None"

/-- Python `dict` with string keys: association list, unique keys in
insertion order. -/
abbrev PyDict := List (Str × MVal)

/-- `d[k] = v`: replace the value in place if `k` is present, else append. -/
def dictInsert : PyDict → Str → MVal → PyDict
  | [], k, v => [(k, v)]
  | (k', v') :: rest, k, v =>
    if k' = k then (k', v) :: rest else (k', v') :: dictInsert rest k v

def dictGet : PyDict → Str → Option MVal
  | [], _ => Option.none
  | (k', v') :: rest, k => if k' = k then some v' else dictGet rest k

/-- Python `d.get(k, default)`. -/
def dictGetD (d : PyDict) (k : Str) (v : MVal) : MVal := (dictGet d k).getD v

/-- Python `d.update(new)`. -/
def dictUpdate (d new : PyDict) : PyDict :=
  new.foldl (fun acc kv => dictInsert acc kv.1 kv.2) d

def dictKeys (d : PyDict) : List Str := d.map (fun kv => kv.1)

/-- `",".join xs`. -/
def joinComma : List Str → Str
  | [] => []
  | [x] => x
  | x :: y :: xs => x ++ ',' :: joinComma (y :: xs)

/- ------------------------------------------------------------------
RecordCodec (src/models/db_engine/db.py FileDB.write_data_line and
src/util/__init__.py modify_data_to_dict)
------------------------------------------------------------------ -/

/-- `FileDB.write_data_line`:
`line = ",".join([f"{key}={value}" for key, value in data.items()])`
followed by `self.write(line + "\n")`. Returns the written text. -/
def write_data_line (data : PyDict) : Str :=
  joinComma (data.map (fun kv => kv.1 ++ '=' :: kv.2.pyStr)) ++ ['\n']

def modifyGo : List Str → PyDict → Option PyDict
  | [], acc => some acc
  | datum :: rest, acc =>
    match pySplit '=' datum with
    | [param, value] =>
      let v := if value = chars "None" then MVal.none else MVal.str (pyStrip value)
      modifyGo rest (dictInsert acc (pyStrip param) v)
    | _ => Option.none

/-- `util.modify_data_to_dict`: strip trailing newlines, split on `,`,
unpack each segment as `param, value = datum.split("=")` (a Python
`ValueError` — modelled as `Option.none` — unless the segment splits into
exactly two parts), decode the literal `None` to null, strip every other
value, and build the dict in order. -/
def modify_data_to_dict (line : Str) : Option PyDict :=
  modifyGo (pySplit ',' (pyRstripNl line)) []

/- ------------------------------------------------------------------
MetaDB line merging and parsing (src/models/db_engine/db.py)
------------------------------------------------------------------ -/

/-- `line.startswith("#")`. -/
def lineIsComment : Str → Bool
  | [] => false
  | c :: _ => c = '#'

/-- `line.split("=")[0]`: the text before the first `=` (the whole line
when it has no `=`). -/
def lineKey (l : Str) : Str := (pySplit '=' l).headD []

/-- The loop of `MetaDB.update_metadata_lines`: walk the buffer threading
the not-yet-matched update keys; a non-comment, non-empty line whose
`split("=")[0]` is a pending key is rewritten to `key=str(value)` and the
key is removed, so later duplicates are left alone. Returns the rewritten
buffer together with the keys that matched no line. -/
def updLinesGo (meta : PyDict) : List Str → List Str → List Str × List Str
  | [], ks => ([], ks)
  | l :: ls, ks =>
    if ¬lineIsComment l ∧ l ≠ [] then
      let dk := lineKey l
      if dk ∈ ks then
        let l2 := dk ++ '=' :: (dictGetD meta dk MVal.none).pyStr
        let p := updLinesGo meta ls (ks.erase dk)
        (l2 :: p.1, p.2)
      else
        let p := updLinesGo meta ls ks
        (l :: p.1, p.2)
    else
      let p := updLinesGo meta ls ks
      (l :: p.1, p.2)

/-- `MetaDB.update_metadata_lines(meta)`: rewrite matched keys in place,
then append `key=str(value)` lines for the remaining keys.  (CPython
iterates the leftover `keys` set in hash order; this embedding
determinises that order to the dict's insertion order.) -/
def update_metadata_lines (lines : List Str) (meta : PyDict) : List Str :=
  let p := updLinesGo meta lines (dictKeys meta)
  p.1 ++ p.2.map (fun k => k ++ '=' :: (dictGetD meta k MVal.none).pyStr)

/-- `util.convert_to_int_or_leave_unchanged` applied to the
already-stripped value: digits-only strings become ints. -/
def pyIsdigitStr (s : Str) : Bool := !s.isEmpty && s.all pyIsDigit

def digitsToNat (s : Str) : Nat := s.foldl (fun n c => 10 * n + (c.toNat - 48)) 0

def convert_to_int_or_leave_unchanged (s : Str) : MVal :=
  if pyIsdigitStr s then .int (digitsToNat s) else .str s

/-- The parsing loop of `MetaDB.retrieve_metadata` over the (already
newline-stripped) metadata lines: a non-comment line containing `=` is
unpacked as `key, val = [l.strip() for l in line.split("=")]` (ValueError
— `Option.none` — when the line holds more than one `=`), and stored when
the key filter is empty or contains the key. -/
def retrieveGo (filt : List Str) : List Str → PyDict → Option PyDict
  | [], m => some m
  | l :: ls, m =>
    if ¬lineIsComment l ∧ '=' ∈ l then
      match pySplit '=' l with
      | [k0, v0] =>
        let k := pyStrip k0
        let v := pyStrip v0
        if filt = [] ∨ k ∈ filt then
          retrieveGo filt ls (dictInsert m k (convert_to_int_or_leave_unchanged v))
        else retrieveGo filt ls m
      | _ => Option.none
    else retrieveGo filt ls m

/-- `MetaDB.retrieve_metadata` restricted to its parsing step: merge the
recognised `key=value` lines into the overlay `m0`. -/
def retrieve_metadata (m0 : PyDict) (filt : List Str) (lines : List Str) :
    Option PyDict :=
  retrieveGo filt lines m0

/-- Python `fd.readlines()`: split the text after every newline, keeping
the newline; a final fragment without a newline is kept too. -/
def readlinesAux : Str → Str → List Str
  | [], cur => if cur = [] then [] else [cur.reverse]
  | c :: cs, cur =>
    if c = '\n' then (cur.reverse ++ ['\n']) :: readlinesAux cs []
    else readlinesAux cs (c :: cur)

def pyReadlines (s : Str) : List Str := readlinesAux s []

/-- `MetaDB.retrieve_metadata_lines`: `readlines` then `rstrip("\n")`
each line. -/
def retrieve_metadata_lines (content : Str) : List Str :=
  (pyReadlines content).map pyRstripNl

def joinLines (lines : List Str) : Str := (lines.map (fun l => l ++ ['\n'])).flatten

/-- Writing `new` from position 0 of a file opened in mode `"r+"`
(`FileDB.__enter__` / `FileDB.open` with the default mode): the file is
not truncated, so any old bytes beyond the written text survive. -/
def overlayWrite (old new : Str) : Str := new ++ old.drop new.length

/-- `MetaDB.save_metadata(path, meta)` on an existing file whose current
content is `content`: load the lines (`retrieve_metadata_lines`), merge
(`update_metadata_lines`), then write every merged line from position 0
of the re-opened (`"r+"`) file. Returns the resulting file content and
the merged line buffer. -/
def save_metadata (content : Str) (meta : PyDict) : Str × List Str :=
  let lines1 := update_metadata_lines (retrieve_metadata_lines content) meta
  (overlayWrite content (joinLines lines1), lines1)

/- ------------------------------------------------------------------
MetaDB.readline / MetaDB.readlines (src/models/db_engine/db.py 499-531)
------------------------------------------------------------------ -/

/-- The characters of one `fd.readline()` starting at the current
position: up to and including the first newline, or to end of file. -/
def takeThroughNl : Str → Str
  | [] => []
  | c :: cs => if c = '\n' then [c] else c :: takeThroughNl cs

def readLineAt (content : Str) (pos : Nat) : Str := takeThroughNl (content.drop pos)

/-- The value of `self.meta.get("Offset", 0)` as a seek argument: only an
int is usable; `None` (or a string) makes `fd.seek` raise `TypeError`. -/
def metaOffsetInt (m : PyDict) : Option Int :=
  match dictGetD m (chars "Offset") (MVal.int 0) with
  | MVal.int i => some i
  | _ => Option.none

/-- The seek target of `MetaDB.readline`:
`self.fd.seek(offset or self.meta.get("Offset", 0))` — Python `or` falls
back to the overlay whenever `offset` is `None` or `0`. -/
def seekTarget (m : PyDict) (offset : Option Int) : Option Int :=
  match offset with
  | some o => if o ≠ 0 then some o else metaOffsetInt m
  | Option.none => metaOffsetInt m

/-- `MetaDB.readline(offset)` on an open file with content `content`:
seek, read one line, then `self.update_metadata({"Offset": self.fd.tell()})`.
Returns the line, the new overlay and the new position; `Option.none`
models the `TypeError`/`ValueError` a non-int or negative seek target
raises (before the overlay is touched). -/
def mdbReadline (content : Str) (m : PyDict) (offset : Option Int) :
    Option (Str × PyDict × Nat) :=
  match seekTarget m offset with
  | Option.none => Option.none
  | some o =>
    if o < 0 then Option.none
    else
      let p := o.toNat
      let line := readLineAt content p
      let newPos := p + line.length
      some (line, dictInsert m (chars "Offset") (MVal.int newPos), newPos)

/-- `MetaDB.readlines(offset)` on an open file whose current position is
`pos0`: seek only when `offset is not None`, read everything, then
`self.update_metadata({"Offset": self.fd.tell()})`. -/
def mdbReadlines (content : Str) (m : PyDict) (pos0 : Nat) (offset : Option Int) :
    Option (List Str × PyDict × Nat) :=
  match offset with
  | some o =>
    if o < 0 then Option.none
    else
      let p := o.toNat
      let newPos := max p content.length
      some (pyReadlines (content.drop p),
            dictInsert m (chars "Offset") (MVal.int newPos), newPos)
  | Option.none =>
    let newPos := max pos0 content.length
    some (pyReadlines (content.drop pos0),
          dictInsert m (chars "Offset") (MVal.int newPos), newPos)

/- ------------------------------------------------------------------
CloudTransferManager.upload_file (src/models/data_manager/cloud_transfer.py
315-338) and the surrounding drain cycle.

The metadata file is abstracted to its parsed mapping `disk`
(`retrieve_metadata` of its lines); `save_metadata` of a well-formed
mapping corresponds to `dictUpdate` on that abstraction.
------------------------------------------------------------------ -/

/-- The engine state seen by one `upload_file` call: the in-memory
overlay `self.meta_db.meta` and the persisted metadata mapping. -/
structure CTMState where
  mem : PyDict
  disk : PyDict
deriving DecidableEq, Repr

/-- Result of one `upload_file` call: overlay and persisted metadata
afterwards, the lines the sink confirmed, and whether the call raised
(`raised = true` models the `AWSCloudUploadError` that aborts the pass). -/
structure PassOut where
  mem : PyDict
  disk : PyDict
  confirmed : List Str
  raised : Bool
deriving DecidableEq, Repr

/-- Index of the first line whose publish fails, if any. -/
def firstFailure (sink : Nat → Bool) (n : Nat) : Option Nat :=
  (List.range n).find? (fun i => ¬sink i)

/-- `CloudTransferManager.upload_file(filepath)` over file content
`content`, with `sink i` the outcome of publishing the `i`-th line read
in this pass and `connected` the value of `self._is_connected()`:

1. `lines = db.readlines(self.meta_db.meta.get("Offset", 0))` — a fresh
   file handle (position 0); the overlay's `Offset` is advanced to end of
   file before anything is published;
2. if connected, publish the lines in order; the first failure raises and
   nothing is persisted;
3. only when every line was confirmed,
   `save_metadata(meta={"LastUploadFile": filepath, "Offset": ...})`
   persists once for the whole file, and the overlay's `Offset` is set to
   `None`.

`Option.none` models the `TypeError` of seeking to a non-int overlay
value. -/
def upload_file (content : Str) (path : Str) (sink : Nat → Bool)
    (connected : Bool) (st : CTMState) : Option PassOut :=
  let offsetArg : Option (Option Int) :=
    match dictGetD st.mem (chars "Offset") (MVal.int 0) with
    | MVal.int i => some (some i)
    | MVal.none => some Option.none
    | MVal.str _ => Option.none
  match offsetArg with
  | Option.none => Option.none
  | some arg =>
    match mdbReadlines content st.mem 0 arg with
    | Option.none => Option.none
    | some (lines, mem1, _) =>
      if connected then
        match firstFailure sink lines.length with
        | some k => some ⟨mem1, st.disk, lines.take k, true⟩
        | Option.none =>
          let newMeta : PyDict :=
            [(chars "LastUploadFile", MVal.str path),
             (chars "Offset", dictGetD mem1 (chars "Offset") (MVal.int 0))]
          some ⟨dictInsert mem1 (chars "Offset") MVal.none,
                dictUpdate st.disk newMeta, lines, false⟩
      else
        some ⟨mem1, st.disk, [], false⟩

/-- The start of the next drain cycle:
`self.meta_db.retrieve_metadata()` re-reads the metadata file and merges
it into the overlay (`self.meta[key] = ...` for every persisted key);
keys absent from the file keep their stale in-memory values. -/
def retrieveInto (mem disk : PyDict) : PyDict := dictUpdate mem disk

/-- The resume position a pass actually reads from, given the overlay:
`meta.get("Offset", 0)` fed to `readlines` — an int seeks there, `None`
leaves the fresh handle at position 0. -/
def resumePos (mem : PyDict) : Option Nat :=
  match dictGetD mem (chars "Offset") (MVal.int 0) with
  | MVal.int i => if i < 0 then Option.none else some i.toNat
  | MVal.none => some 0
  | MVal.str _ => Option.none

/-- The lines one pass reads, given the overlay and the file content. -/
def passLines (content : Str) (mem : PyDict) : List Str :=
  match resumePos mem with
  | some p => pyReadlines (content.drop p)
  | Option.none => []

/- ------------------------------------------------------------------
UploadCursor (src/models/data_manager/storage_manager.py
StorageManager.get_unuploaded_files)
------------------------------------------------------------------ -/

/-- The two path templates switched by the `MODE` environment flag:
`dev`/`inter-dev` uses `%Y/%m/%d/dev/all`, anything else
`%Y/%m/%d/inverter/all`. -/
inductive PathMode where
  | dev
  | inverter
deriving DecidableEq, Repr

def topicTail : PathMode → Str
  | .dev => chars "/dev/all"
  | .inverter => chars "/inverter/all"

/-- Case-insensitive literal match (Python `strptime` compiles format
literals into a case-insensitive regex); returns the rest of the input. -/
def matchLit : Str → Str → Option Str
  | [], s => some s
  | _ :: _, [] => Option.none
  | c :: cs, d :: ds => if c.toLower = d.toLower then matchLit cs ds else Option.none

def digitVal (c : Char) : Nat := c.toNat - 48

/-- `%Y`: exactly four digits. -/
def matchYear : Str → Option (Nat × Str)
  | a :: b :: c :: d :: rest =>
    if pyIsDigit a && pyIsDigit b && pyIsDigit c && pyIsDigit d then
      some (1000 * digitVal a + 100 * digitVal b + 10 * digitVal c + digitVal d, rest)
    else Option.none
  | _ => Option.none

/-- `%m` alternatives in regex priority order: `1[0-2] | 0[1-9] | [1-9]`. -/
def monthCands : Str → List (Nat × Str)
  | s =>
    (match s with
     | '1' :: c :: rest => if '0' ≤ c && c ≤ '2' then [(10 + digitVal c, rest)] else []
     | _ => []) ++
    (match s with
     | '0' :: c :: rest => if '1' ≤ c && c ≤ '9' then [(digitVal c, rest)] else []
     | _ => []) ++
    (match s with
     | c :: rest => if '1' ≤ c && c ≤ '9' then [(digitVal c, rest)] else []
     | _ => [])

/-- `%d` alternatives in regex priority order:
`3[01] | [12]\d | 0[1-9] | [1-9]`. -/
def dayCands : Str → List (Nat × Str)
  | s =>
    (match s with
     | '3' :: c :: rest => if '0' ≤ c && c ≤ '1' then [(30 + digitVal c, rest)] else []
     | _ => []) ++
    (match s with
     | t :: c :: rest =>
       if ('1' ≤ t && t ≤ '2') && pyIsDigit c then [(10 * digitVal t + digitVal c, rest)] else []
     | _ => []) ++
    (match s with
     | '0' :: c :: rest => if '1' ≤ c && c ≤ '9' then [(digitVal c, rest)] else []
     | _ => []) ++
    (match s with
     | c :: rest => if '1' ≤ c && c ≤ '9' then [(digitVal c, rest)] else []
     | _ => [])

def isLeap (y : Nat) : Bool := y % 4 = 0 && (y % 100 ≠ 0 || y % 400 = 0)

def daysInMonth (y m : Nat) : Nat :=
  if m = 2 then (if isLeap y then 29 else 28)
  else if m = 4 ∨ m = 6 ∨ m = 9 ∨ m = 11 then 30
  else 31

/-- First success of the continuation over regex alternatives
(backtracking). -/
def firstSome {α β : Type} (f : α → Option β) : List α → Option β
  | [] => Option.none
  | a :: rest =>
    match f a with
    | some b => some b
    | Option.none => firstSome f rest

/-- `datetime.strptime(s, db_path + "%Y/%m/%d" + topicTail mode)`:
the whole string must match, and the date must be constructible
(`datetime` rejects year 0 and out-of-range days). Returns `(y, m, d)`. -/
def parseLastUploadPath (mode : PathMode) (dbPath : Str) (s : Str) :
    Option (Nat × Nat × Nat) :=
  match matchLit dbPath s with
  | Option.none => Option.none
  | some s1 =>
    match matchYear s1 with
    | Option.none => Option.none
    | some (y, s2) =>
      match matchLit (chars "/") s2 with
      | Option.none => Option.none
      | some s3 =>
        firstSome (fun mc =>
          match matchLit (chars "/") mc.2 with
          | Option.none => Option.none
          | some s4 =>
            firstSome (fun dc =>
              match matchLit (topicTail mode) dc.2 with
              | some [] =>
                if 1 ≤ y ∧ 1 ≤ dc.1 ∧ dc.1 ≤ daysInMonth y mc.1 then
                  some (y, mc.1, dc.1)
                else Option.none
              | _ => Option.none) (dayCands s4)) (monthCands s3)

/-- `date(y, m, d).toordinal()` (proleptic Gregorian, day 1 = 0001-01-01),
the arithmetic `datetime` subtraction and `timedelta(days=i)` reduce to. -/
def daysBeforeMonth (y m : Nat) : Nat :=
  (List.range (m - 1)).foldl (fun a i => a + daysInMonth y (i + 1)) 0

def toOrdinal (y m d : Nat) : Nat :=
  365 * (y - 1) + (y - 1) / 4 - (y - 1) / 100 + (y - 1) / 400 + daysBeforeMonth y m + d

/-- The generator body of `StorageManager.get_unuploaded_files` after the
cursor parse, over date ordinals: `date_range = (now - last).days`; for
`i in range(0, date_range + 1)` yield the day's directory path when it
exists on disk. `fs d` abstracts `os.path.exists` of the (injective)
path `db_path + strftime(d) + topicTail mode` for the day with ordinal
`d`. -/
def get_unuploaded_files (fs : Nat → Bool) (lastOrd todayOrd : Nat) : List Nat :=
  let dateRange : Int := (todayOrd : Int) - (lastOrd : Int)
  (List.range (dateRange + 1).toNat).filterMap
    (fun i => if fs (lastOrd + i) then some (lastOrd + i) else Option.none)

inductive CursorError where
  | parseError
deriving DecidableEq, Repr

/-- The whole pending-files computation: parse the date out of the
last-uploaded path (a `ValueError` from `strptime` — the spec's
`CursorParseError` — propagates out of the generator), then enumerate the
existing files for each day from that date through today. -/
def pendingFiles (mode : PathMode) (fs : Nat → Bool) (dbPath : Str)
    (lastPath : Str) (todayOrd : Nat) : Except CursorError (List Nat) :=
  match parseLastUploadPath mode dbPath lastPath with
  | Option.none => .error .parseError
  | some (y, m, d) => .ok (get_unuploaded_files fs (toOrdinal y m d) todayOrd)

/- ------------------------------------------------------------------
Basic lemmas about the dictionary model
------------------------------------------------------------------ -/

theorem dictGet_dictInsert_self (m : PyDict) (k : Str) (v : MVal) :
    dictGet (dictInsert m k v) k = some v := by
  induction m with
  | nil => simp [dictInsert, dictGet]
  | cons kv rest ih =>
    obtain ⟨a, b⟩ := kv
    by_cases h : a = k
    · simp [dictInsert, dictGet, h]
    · simp [dictInsert, dictGet, h, ih]

theorem dictGet_dictInsert_ne (m : PyDict) (k k' : Str) (v : MVal) (h : k' ≠ k) :
    dictGet (dictInsert m k v) k' = dictGet m k' := by
  induction m with
  | nil => simp [dictInsert, dictGet, Ne.symm h]
  | cons kv rest ih =>
    obtain ⟨a, b⟩ := kv
    by_cases ha : a = k
    · subst ha
      simp [dictInsert, dictGet, Ne.symm h]
    · simp only [dictInsert, if_neg ha]
      by_cases ha' : a = k'
      · simp [dictGet, ha']
      · simp [dictGet, ha', ih]


/- ------------------------------------------------------------------
Claim C9
------------------------------------------------------------------ -/

/-- C9: every completed `MetaDB.readline` or `MetaDB.readlines` call
mutates the in-memory overlay as a side effect, setting `meta["Offset"]`
to the file position reached after the read (the position the call
returns), even though the lines themselves may never be consumed; and no
other overlay key changes. -/
theorem claim_C9 :
    (∀ (content : Str) (m : PyDict) (offset : Option Int)
       (line : Str) (m2 : PyDict) (p2 : Nat),
       mdbReadline content m offset = some (line, m2, p2) →
       dictGet m2 (chars "Offset") = some (MVal.int p2) ∧
       ∀ k, k ≠ chars "Offset" → dictGet m2 k = dictGet m k) ∧
    (∀ (content : Str) (m : PyDict) (pos0 : Nat) (offset : Option Int)
       (lines : List Str) (m2 : PyDict) (p2 : Nat),
       mdbReadlines content m pos0 offset = some (lines, m2, p2) →
       dictGet m2 (chars "Offset") = some (MVal.int p2) ∧
       ∀ k, k ≠ chars "Offset" → dictGet m2 k = dictGet m k) := by
  constructor
  · intro content m offset line m2 p2 h
    cases ho : seekTarget m offset with
    | none => simp [mdbReadline, ho] at h
    | some o =>
      by_cases hneg : o < 0
      · simp [mdbReadline, ho, hneg] at h
      · simp only [mdbReadline, ho, if_neg hneg, Option.some.injEq, Prod.mk.injEq] at h
        obtain ⟨-, hm, hp⟩ := h
        subst hm
        subst hp
        exact ⟨dictGet_dictInsert_self .., fun k hk => dictGet_dictInsert_ne _ _ _ _ hk⟩
  · intro content m pos0 offset lines m2 p2 h
    cases offset with
    | none =>
      simp only [mdbReadlines, Option.some.injEq, Prod.mk.injEq] at h
      obtain ⟨-, hm, hp⟩ := h
      subst hm
      subst hp
      exact ⟨dictGet_dictInsert_self .., fun k hk => dictGet_dictInsert_ne _ _ _ _ hk⟩
    | some o =>
      by_cases hneg : o < 0
      · simp [mdbReadlines, hneg] at h
      · simp only [mdbReadlines, if_neg hneg, Option.some.injEq, Prod.mk.injEq] at h
        obtain ⟨-, hm, hp⟩ := h
        subst hm
        subst hp
        exact ⟨dictGet_dictInsert_self .., fun k hk => dictGet_dictInsert_ne _ _ _ _ hk⟩

/-- Witness for C9 at a concrete input: reading one line of `"ab\ncd\n"`
with the overlay `{"Target": "/t", "Offset": 3}` sets `Offset` to 6 and
leaves `Target` untouched. -/
theorem claim_C9_witness :
    dictGet [(chars "Target", MVal.str (chars "/t")),
             (chars "Offset", MVal.int 6)] (chars "Offset") = some (MVal.int 6) ∧
    dictGet [(chars "Target", MVal.str (chars "/t")),
             (chars "Offset", MVal.int 6)] (chars "Target") =
      dictGet [(chars "Target", MVal.str (chars "/t")),
               (chars "Offset", MVal.int 3)] (chars "Target") := by
  have h := claim_C9.1 (chars "ab\ncd\n")
    [(chars "Target", MVal.str (chars "/t")), (chars "Offset", MVal.int 3)]
    Option.none (chars "cd\n")
    [(chars "Target", MVal.str (chars "/t")), (chars "Offset", MVal.int 6)]
    6 (by decide)
  exact ⟨h.1, h.2 (chars "Target") (by decide)⟩

/- ------------------------------------------------------------------
Claim C6
------------------------------------------------------------------ -/

/-- C6 counterexample: saving `{"Offset": 5}` over a file whose content
is `"Offset=1000\n"` does NOT leave the file equal to the merged buffer
`"Offset=5\n"`: the `"r+"` rewrite never truncates, so the stale bytes
`"00\n"` of the previous content survive and the file reads
`"Offset=5\n00\n"`. -/
theorem claim_C6_counterexample :
    (save_metadata (chars "Offset=1000\n") [(chars "Offset", MVal.int 5)]).1 ≠
      joinLines (update_metadata_lines
        (retrieve_metadata_lines (chars "Offset=1000\n"))
        [(chars "Offset", MVal.int 5)]) ∧
    (save_metadata (chars "Offset=1000\n") [(chars "Offset", MVal.int 5)]).1 =
      chars "Offset=5\n00\n" := by
  decide

/-- C6 amended: `save_metadata` loads the current lines, merges the
update into them, and rewrites the file from position 0 WITHOUT
truncating: the resulting content is the merged buffer followed by
whatever bytes of the previous content lie beyond it, and it equals
exactly the merged buffer if and only if the merged buffer is at least as
long as the previous content. -/
theorem claim_C6 :
    ∀ (content : Str) (meta : PyDict),
      (save_metadata content meta).1 =
        joinLines (update_metadata_lines (retrieve_metadata_lines content) meta) ++
          content.drop
            (joinLines (update_metadata_lines (retrieve_metadata_lines content) meta)).length ∧
      ((save_metadata content meta).1 =
          joinLines (update_metadata_lines (retrieve_metadata_lines content) meta) ↔
        content.length ≤
          (joinLines (update_metadata_lines (retrieve_metadata_lines content) meta)).length) := by
  intro content meta
  constructor
  · rfl
  · constructor
    · intro h
      have hlen := congrArg List.length h
      simp only [save_metadata, overlayWrite, List.length_append, List.length_drop] at hlen
      omega
    · intro h
      simp only [save_metadata, overlayWrite]
      rw [List.drop_eq_nil_iff.mpr h, List.append_nil]

/- ------------------------------------------------------------------
Lemmas about pySplit and line shapes
------------------------------------------------------------------ -/

theorem pySplit_ne_nil (sep : Char) (s : Str) : pySplit sep s ≠ [] := by
  cases s with
  | nil => simp [pySplit]
  | cons c cs =>
    by_cases h : c = sep
    · simp [pySplit, h]
    · simp only [pySplit, if_neg h]
      cases pySplit sep cs <;> simp

theorem pySplit_no_sep (sep : Char) (s : Str) (h : sep ∉ s) :
    pySplit sep s = [s] := by
  induction s with
  | nil => rfl
  | cons c cs ih =>
    have hc : ¬c = sep := fun hc => h (hc ▸ List.mem_cons_self c cs)
    have hcs : sep ∉ cs := fun hm => h (List.mem_cons_of_mem c hm)
    simp [pySplit, hc, ih hcs]

theorem pySplit_append_sep (sep : Char) (k v : Str) (h : sep ∉ k) :
    pySplit sep (k ++ sep :: v) = k :: pySplit sep v := by
  induction k with
  | nil => simp [pySplit]
  | cons c cs ih =>
    have hc : ¬c = sep := fun hc => h (hc ▸ List.mem_cons_self c cs)
    have hcs : sep ∉ cs := fun hm => h (List.mem_cons_of_mem c hm)
    simp only [List.cons_append, pySplit, if_neg hc, List.append_eq, ih hcs]

theorem pySplit_pair (sep : Char) (k v : Str) (hk : sep ∉ k) (hv : sep ∉ v) :
    pySplit sep (k ++ sep :: v) = [k, v] := by
  rw [pySplit_append_sep sep k v hk, pySplit_no_sep sep v hv]

theorem lineKey_pair (k v : Str) (hk : '=' ∉ k) :
    lineKey (k ++ '=' :: v) = k := by
  rw [lineKey, pySplit_append_sep '=' k v hk]
  rfl

/- ------------------------------------------------------------------
Lemmas about the metadata update and parse loops
------------------------------------------------------------------ -/

theorem updLinesGo_nil_keys (meta : PyDict) (ls : List Str) :
    updLinesGo meta ls [] = (ls, []) := by
  induction ls with
  | nil => rfl
  | cons l ls ih =>
    by_cases h : ¬lineIsComment l ∧ l ≠ []
    · simp [updLinesGo, h, ih]
    · simp [updLinesGo, h, ih]

theorem retrieveGo_append (filt : List Str) (xs ys : List Str) (m : PyDict) :
    retrieveGo filt (xs ++ ys) m =
      (retrieveGo filt xs m).bind (fun m1 => retrieveGo filt ys m1) := by
  induction xs generalizing m with
  | nil => rfl
  | cons l ls ih =>
    by_cases h : ¬lineIsComment l ∧ '=' ∈ l
    · simp only [List.cons_append, retrieveGo, if_pos h]
      cases hs : pySplit '=' l with
      | nil => rfl
      | cons a tl =>
        cases tl with
        | nil => rfl
        | cons b tl2 =>
          cases tl2 with
          | nil =>
            by_cases hf : filt = [] ∨ pyStrip a ∈ filt
            · simp only [if_pos hf]
              exact ih _
            · simp only [if_neg hf]
              exact ih _
          | cons c tl3 => rfl
    · simp only [List.cons_append, retrieveGo, if_neg h]
      exact ih _

theorem updLinesGo_single_skip (meta : PyDict) (k : Str) (pre ls : List Str)
    (hpre : ∀ l ∈ pre, lineIsComment l = true ∨ l = [] ∨ lineKey l ≠ k) :
    updLinesGo meta (pre ++ ls) [k] =
      (pre ++ (updLinesGo meta ls [k]).1, (updLinesGo meta ls [k]).2) := by
  induction pre with
  | nil => simp
  | cons l pre ih =>
    have hrest : ∀ x ∈ pre, lineIsComment x = true ∨ x = [] ∨ lineKey x ≠ k :=
      fun x hx => hpre x (List.mem_cons_of_mem l hx)
    by_cases hce : ¬lineIsComment l = true ∧ l ≠ []
    · have hk : lineKey l ≠ k := by
        rcases hpre l (List.mem_cons_self l pre) with hc | he | hk
        · exact absurd hc hce.1
        · exact absurd he hce.2
        · exact hk
      simp only [List.cons_append, updLinesGo, if_pos hce, List.append_eq,
        List.mem_singleton, if_neg hk, ih hrest]
    · simp only [List.cons_append, updLinesGo, if_neg hce, List.append_eq, ih hrest]

theorem updLinesGo_single_hit (meta : PyDict) (k v : Str) (rest : List Str)
    (hk : '=' ∉ k) (hcom : lineIsComment (k ++ '=' :: v) = false) :
    updLinesGo meta ((k ++ '=' :: v) :: rest) [k] =
      ((k ++ '=' :: (dictGetD meta k MVal.none).pyStr) :: rest, []) := by
  have hcond : ¬lineIsComment (k ++ '=' :: v) = true ∧ (k ++ '=' :: v) ≠ [] := by
    refine ⟨by simp [hcom], by simp⟩
  simp only [updLinesGo, if_pos hcond, lineKey_pair k v hk, List.mem_singleton,
    List.erase_cons_head, updLinesGo_nil_keys]
  simp

/- ------------------------------------------------------------------
Claim C10
------------------------------------------------------------------ -/

/-- C10: with duplicate keys in the metadata line buffer, an update
rewrites only the FIRST matching non-comment line (everything after it,
later duplicates included, is returned unchanged), while the
`retrieve_metadata` parse returns the value of the LAST occurrence; on
the concrete buffer `["A=1", "A=2"]`, updating `{"A": 9}` gives
`["A=9", "A=2"]`, which retrieves as `{"A": 2}` — not the updated `9`. -/
theorem claim_C10 :
    (∀ (pre rest : List Str) (k v : Str) (u : MVal),
       '=' ∉ k →
       lineIsComment (k ++ '=' :: v) = false →
       (∀ l ∈ pre, lineIsComment l = true ∨ l = [] ∨ lineKey l ≠ k) →
       update_metadata_lines (pre ++ (k ++ '=' :: v) :: rest) [(k, u)] =
         pre ++ (k ++ '=' :: u.pyStr) :: rest) ∧
    (∀ (ls : List Str) (m0 m : PyDict) (k w : Str),
       '=' ∉ k → '=' ∉ w →
       lineIsComment (k ++ '=' :: w) = false →
       retrieve_metadata m0 [] (ls ++ [k ++ '=' :: w]) = some m →
       dictGet m (pyStrip k) =
         some (convert_to_int_or_leave_unchanged (pyStrip w))) ∧
    (update_metadata_lines [chars "A=1", chars "A=2"] [(chars "A", MVal.int 9)] =
       [chars "A=9", chars "A=2"] ∧
     retrieve_metadata [] [] [chars "A=9", chars "A=2"] =
       some [(chars "A", MVal.int 2)] ∧
     MVal.int 2 ≠ MVal.int 9) := by
  refine ⟨?_, ?_, by decide⟩
  · intro pre rest k v u hk hcom hpre
    unfold update_metadata_lines
    rw [show dictKeys [(k, u)] = [k] from rfl,
      updLinesGo_single_skip [(k, u)] k pre _ hpre,
      updLinesGo_single_hit [(k, u)] k v rest hk hcom]
    simp [dictGetD, dictGet]
  · intro ls m0 m k w hk hw hcom h
    rw [retrieve_metadata, retrieveGo_append] at h
    cases hm1 : retrieveGo [] ls m0 with
    | none => rw [hm1] at h; cases h
    | some m1 =>
      rw [hm1] at h
      have hcond : ¬lineIsComment (k ++ '=' :: w) = true ∧ '=' ∈ (k ++ '=' :: w) := by
        refine ⟨by simp [hcom], by simp⟩
      simp only [Option.some_bind, retrieveGo, if_pos hcond,
        pySplit_pair '=' k w hk hw] at h
      simp only [List.nil_eq, true_or, if_pos, Option.some.injEq] at h
      rw [← h]
      exact dictGet_dictInsert_self ..

/-- Witness for C10 at concrete inputs: updating `{"A": 9}` over
`["B=0"] ++ ["A=1"] ++ ["x", "A=2"]` rewrites only the first `A` line,
and parsing `["B=0", "A=1"] ++ ["A=2"]` returns the last occurrence. -/
theorem claim_C10_witness :
    (update_metadata_lines
        ([chars "B=0"] ++ (chars "A" ++ '=' :: chars "1") :: [chars "x", chars "A=2"])
        [(chars "A", MVal.int 9)] =
      [chars "B=0"] ++ (chars "A" ++ '=' :: (MVal.int 9).pyStr) :: [chars "x", chars "A=2"]) ∧
    dictGet [(chars "B", MVal.int 0), (chars "A", MVal.int 2)] (pyStrip (chars "A")) =
      some (convert_to_int_or_leave_unchanged (pyStrip (chars "2"))) := by
  constructor
  · exact claim_C10.1 [chars "B=0"] [chars "x", chars "A=2"] (chars "A") (chars "1")
      (MVal.int 9) (by decide) (by decide) (by decide)
  · exact claim_C10.2.1 [chars "B=0", chars "A=1"] []
      [(chars "B", MVal.int 0), (chars "A", MVal.int 2)] (chars "A") (chars "2")
      (by decide) (by decide) (by decide) (by decide)

/- ------------------------------------------------------------------
Lemmas about digits, strip, rstrip and joinComma
------------------------------------------------------------------ -/

theorem digitChar_digit (n : Nat) : pyIsDigit (digitChar n) = true := by
  rcases n with _ | _ | _ | _ | _ | _ | _ | _ | _ | n <;> rfl

theorem natDigitsAux_mem_digit (fuel n : Nat) (c : Char)
    (h : c ∈ natDigitsAux fuel n) : pyIsDigit c = true := by
  induction fuel generalizing n with
  | zero => cases h
  | succ fuel ih =>
    by_cases hn : n < 10
    · simp only [natDigitsAux, if_pos hn, List.mem_singleton] at h
      exact h ▸ digitChar_digit n
    · simp only [natDigitsAux, if_neg hn, List.mem_append, List.mem_singleton] at h
      rcases h with h | h
      · exact ih _ h
      · exact h ▸ digitChar_digit (n % 10)

theorem intStr_mem (i : Int) (c : Char) (h : c ∈ intStr i) :
    c = '-' ∨ pyIsDigit c = true := by
  unfold intStr at h
  by_cases hi : i < 0
  · rw [if_pos hi] at h
    rcases List.mem_cons.mp h with h | h
    · exact Or.inl h
    · exact Or.inr (natDigitsAux_mem_digit _ _ _ h)
  · rw [if_neg hi] at h
    exact Or.inr (natDigitsAux_mem_digit _ _ _ h)

theorem intStr_not_mem_special (i : Int) :
    '=' ∉ intStr i ∧ ',' ∉ intStr i ∧ '\n' ∉ intStr i := by
  refine ⟨fun h => ?_, fun h => ?_, fun h => ?_⟩ <;>
    rcases intStr_mem i _ h with h2 | h2 <;> exact absurd h2 (by decide)

theorem dropWhile_eq_self_of_not_mem {p : Char → Bool} {l : Str}
    (h : ∀ c ∈ l, p c = false) : l.dropWhile p = l := by
  cases l with
  | nil => rfl
  | cons c cs =>
    have hc : ¬p c = true := by simp [h c (List.mem_cons_self c cs)]
    exact List.dropWhile_cons_of_neg hc

theorem pyStrip_of_no_space (s : Str) (h : ∀ c ∈ s, pyIsSpace c = false) :
    pyStrip s = s := by
  unfold pyStrip
  rw [dropWhile_eq_self_of_not_mem h,
    dropWhile_eq_self_of_not_mem (fun c hc => h c (List.mem_reverse.mp hc)),
    List.reverse_reverse]

theorem digit_not_space (c : Char) (h : pyIsDigit c = true) :
    pyIsSpace c = false := by
  by_contra hs
  simp only [Bool.not_eq_false, pyIsSpace, Bool.or_eq_true, decide_eq_true_eq] at hs
  rcases hs with ((((hc | hc) | hc) | hc) | hc) | hc <;> rw [hc] at h <;>
    exact absurd h (by decide)

theorem intStr_pyStrip (i : Int) : pyStrip (intStr i) = intStr i := by
  refine pyStrip_of_no_space _ (fun c hc => ?_)
  rcases intStr_mem i c hc with h | h
  · subst h; rfl
  · exact digit_not_space c h

theorem intStr_ne_none (i : Int) : intStr i ≠ chars "None" := by
  intro h
  have : 'N' ∈ intStr i := by rw [h]; decide
  rcases intStr_mem i 'N' this with h2 | h2
  · exact absurd h2 (by decide)
  · exact absurd h2 (by decide)

theorem pyRstripNl_no_nl (l : Str) (h : '\n' ∉ l) : pyRstripNl l = l := by
  unfold pyRstripNl
  rw [dropWhile_eq_self_of_not_mem, List.reverse_reverse]
  intro c hc
  simp only [decide_eq_false_iff_not]
  intro hcc
  exact h (hcc ▸ List.mem_reverse.mp hc)

theorem pyRstripNl_append_nl (l : Str) : pyRstripNl (l ++ ['\n']) = pyRstripNl l := by
  unfold pyRstripNl
  rw [List.reverse_append]
  rfl

theorem joinComma_mem (segs : List Str) (c : Char) (h : c ∈ joinComma segs) :
    c = ',' ∨ ∃ s ∈ segs, c ∈ s := by
  induction segs with
  | nil => cases h
  | cons x xs ih =>
    cases xs with
    | nil =>
      simp only [joinComma] at h
      exact Or.inr ⟨x, List.mem_singleton.mpr rfl, h⟩
    | cons y ys =>
      simp only [joinComma, List.mem_append, List.mem_cons] at h
      rcases h with h | h | h
      · exact Or.inr ⟨x, List.mem_cons_self x _, h⟩
      · exact Or.inl h
      · rcases ih h with h2 | ⟨s, hs, hcs⟩
        · exact Or.inl h2
        · exact Or.inr ⟨s, List.mem_cons_of_mem x hs, hcs⟩

theorem pySplit_joinComma (segs : List Str) (hne : segs ≠ [])
    (h : ∀ s ∈ segs, ',' ∉ s) :
    pySplit ',' (joinComma segs) = segs := by
  induction segs with
  | nil => exact absurd rfl hne
  | cons x xs ih =>
    cases xs with
    | nil => exact pySplit_no_sep ',' x (h x (List.mem_singleton.mpr rfl))
    | cons y ys =>
      have hx : ',' ∉ x := h x (List.mem_cons_self x _)
      rw [joinComma, pySplit_append_sep ',' x _ hx,
        ih (by simp) (fun s hs => h s (List.mem_cons_of_mem x hs))]

/- ------------------------------------------------------------------
Decoding machinery for C5 / C7
------------------------------------------------------------------ -/

/-- The stripped key a segment contributes (`datum.split("=")[0].strip()`). -/
def segStripKey (seg : Str) : Str := pyStrip ((pySplit '=' seg).headD [])

/-- The `(key, value)` pair a well-formed segment decodes to. -/
def segDecode (seg : Str) : Str × MVal :=
  match pySplit '=' seg with
  | [p, v] =>
    (pyStrip p, if v = chars "None" then MVal.none else MVal.str (pyStrip v))
  | _ => ([], MVal.none)

theorem dictInsert_not_mem (acc : PyDict) (k : Str) (v : MVal)
    (h : k ∉ dictKeys acc) : dictInsert acc k v = acc ++ [(k, v)] := by
  induction acc with
  | nil => rfl
  | cons kv rest ih =>
    obtain ⟨a, b⟩ := kv
    have ha : ¬a = k := by
      intro hc
      subst hc
      exact h (List.mem_cons_self a (dictKeys rest))
    have h2 : k ∉ dictKeys rest := fun hm => h (List.mem_cons_of_mem a hm)
    simp [dictInsert, ha, ih h2]

theorem modifyGo_pairs :
    ∀ (segs : List Str) (acc : PyDict),
      (∀ seg ∈ segs, ∃ p v, pySplit '=' seg = [p, v]) →
      (segs.map segStripKey).Nodup →
      (∀ seg ∈ segs, segStripKey seg ∉ dictKeys acc) →
      modifyGo segs acc = some (acc ++ segs.map segDecode) := by
  intro segs
  induction segs with
  | nil => intro acc _ _ _; simp [modifyGo]
  | cons seg rest ih =>
    intro acc hpair hnodup hacc
    obtain ⟨p, v, hpv⟩ := hpair seg (List.mem_cons_self seg rest)
    have hkey : segStripKey seg = pyStrip p := by rw [segStripKey, hpv]; rfl
    have hnotacc : pyStrip p ∉ dictKeys acc :=
      hkey ▸ hacc seg (List.mem_cons_self seg rest)
    simp only [modifyGo, hpv]
    rw [dictInsert_not_mem _ _ _ hnotacc]
    have hrest :
        ∀ s ∈ rest, segStripKey s ∉
          dictKeys (acc ++ [(pyStrip p, if v = chars "None" then MVal.none
            else MVal.str (pyStrip v))]) := by
      intro s hs
      have hkeyne : segStripKey s ≠ segStripKey seg := by
        intro hc
        have := (List.nodup_cons.mp hnodup).1
        exact this (hc ▸ List.mem_map_of_mem segStripKey hs)
      have hsacc : segStripKey s ∉ dictKeys acc := hacc s (List.mem_cons_of_mem seg hs)
      simp only [dictKeys, List.map_append, List.map_cons, List.map_nil,
        List.mem_append, List.mem_singleton]
      rintro (hmem | hmem)
      · exact hsacc hmem
      · exact hkeyne (hkey ▸ hmem)
    rw [ih _ (fun s hs => hpair s (List.mem_cons_of_mem seg hs))
      (List.nodup_cons.mp hnodup).2 hrest]
    have hdec : segDecode seg =
        (pyStrip p, if v = chars "None" then MVal.none else MVal.str (pyStrip v)) := by
      rw [segDecode, hpv]
    rw [List.map_cons, hdec, List.append_assoc]
    rfl

theorem modifyGo_eq_none_iff (segs : List Str) (acc : PyDict) :
    modifyGo segs acc = Option.none ↔
      ∃ seg ∈ segs, (pySplit '=' seg).length ≠ 2 := by
  induction segs generalizing acc with
  | nil => simp [modifyGo]
  | cons seg rest ih =>
    cases hs : pySplit '=' seg with
    | nil =>
      simp only [modifyGo, hs]
      exact ⟨fun _ => ⟨seg, List.mem_cons_self seg rest, by rw [hs]; decide⟩,
        fun _ => trivial⟩
    | cons a tl =>
      cases tl with
      | nil =>
        simp only [modifyGo, hs]
        exact ⟨fun _ => ⟨seg, List.mem_cons_self seg rest, by rw [hs]; simp⟩,
          fun _ => trivial⟩
      | cons b tl2 =>
        cases tl2 with
        | nil =>
          simp only [modifyGo, hs]
          constructor
          · intro h
            obtain ⟨s, hs2, hlen⟩ := (ih _).mp h
            exact ⟨s, List.mem_cons_of_mem seg hs2, hlen⟩
          · intro ⟨s, hs2, hlen⟩
            rcases List.mem_cons.mp hs2 with rfl | hs3
            · rw [hs] at hlen; exact absurd rfl hlen
            · exact (ih _).mpr ⟨s, hs3, hlen⟩
        | cons c tl3 =>
          simp only [modifyGo, hs]
          refine ⟨fun _ => ⟨seg, List.mem_cons_self seg rest, by rw [hs]; simp⟩,
            fun _ => trivial⟩

theorem mem_dictInsert (acc : PyDict) (k : Str) (v : MVal) (kv : Str × MVal)
    (h : kv ∈ dictInsert acc k v) : kv ∈ acc ∨ kv = (k, v) := by
  induction acc with
  | nil => exact Or.inr (List.mem_singleton.mp h)
  | cons ab rest ih =>
    obtain ⟨a, b⟩ := ab
    by_cases ha : a = k
    · simp only [dictInsert, if_pos ha] at h
      rcases List.mem_cons.mp h with rfl | hm
      · exact Or.inr (by rw [ha])
      · exact Or.inl (List.mem_cons_of_mem _ hm)
    · simp only [dictInsert, if_neg ha] at h
      rcases List.mem_cons.mp h with rfl | hm
      · exact Or.inl (List.mem_cons_self _ _)
      · rcases ih hm with h2 | h2
        · exact Or.inl (List.mem_cons_of_mem _ h2)
        · exact Or.inr h2

theorem modifyGo_mem :
    ∀ (segs : List Str) (acc m : PyDict), modifyGo segs acc = some m →
      ∀ kv ∈ m, kv ∈ acc ∨ kv.2 = MVal.none ∨ ∃ s, kv.2 = MVal.str (pyStrip s) := by
  intro segs
  induction segs with
  | nil =>
    intro acc m h kv hm
    simp only [modifyGo, Option.some.injEq] at h
    exact Or.inl (h ▸ hm)
  | cons seg rest ih =>
    intro acc m h kv hm
    cases hs : pySplit '=' seg with
    | nil => rw [modifyGo, hs] at h; cases h
    | cons a tl =>
      cases tl with
      | nil => rw [modifyGo, hs] at h; cases h
      | cons b tl2 =>
        cases tl2 with
        | cons c tl3 => rw [modifyGo, hs] at h; cases h
        | nil =>
          rw [modifyGo, hs] at h
          rcases ih _ m h kv hm with hacc | hrest
          · rcases mem_dictInsert _ _ _ _ hacc with h2 | h2
            · exact Or.inl h2
            · by_cases hb : b = chars "None"
              · rw [if_pos hb] at h2
                exact Or.inr (Or.inl (by rw [h2]))
              · rw [if_neg hb] at h2
                exact Or.inr (Or.inr ⟨b, by rw [h2]⟩)
          · exact Or.inr hrest

/- ------------------------------------------------------------------
Claim C5
------------------------------------------------------------------ -/

/-- C5 counterexample, at the spec's own example record: encoding
`{"temp": None, "v": 12}` gives `"temp=None,v=12\n"`, but decoding that
line yields `v` mapped to the STRING `"12"`, not the integer `12` —
`modify_data_to_dict` performs no integer parsing at all, so
`decode(encode(r)) ≠ r` for any record with an int value. -/
theorem claim_C5_counterexample :
    modify_data_to_dict
        (write_data_line [(chars "temp", MVal.none), (chars "v", MVal.int 12)]) =
      some [(chars "temp", MVal.none), (chars "v", MVal.str (chars "12"))] ∧
    modify_data_to_dict
        (write_data_line [(chars "temp", MVal.none), (chars "v", MVal.int 12)]) ≠
      some [(chars "temp", MVal.none), (chars "v", MVal.int 12)] := by
  decide

/-- A record field name fit for the round trip: free of `=`, `,` and
newline, and stable under `strip()`. -/
def wfFieldKey (k : Str) : Prop := '=' ∉ k ∧ ',' ∉ k ∧ '\n' ∉ k ∧ pyStrip k = k

/-- A record value fit for the round trip: ints and null are always fine;
a string must be free of `=`, `,` and newline, stable under `strip()`,
and not the literal text `None`. -/
def wfFieldVal : MVal → Prop
  | MVal.str s => '=' ∉ s ∧ ',' ∉ s ∧ '\n' ∉ s ∧ pyStrip s = s ∧ s ≠ chars "None"
  | MVal.int _ => True
  | MVal.none => True

/-- What actually survives the round trip: integers come back as their
decimal strings; strings and null come back unchanged. -/
def stringifyVal : MVal → MVal
  | MVal.int i => MVal.str (intStr i)
  | v => v

instance : DecidablePred wfFieldKey := fun k => by
  unfold wfFieldKey
  infer_instance

instance : DecidablePred wfFieldVal := fun v => by
  cases v <;> unfold wfFieldVal <;> infer_instance

theorem pyStr_not_special (v : MVal) (hv : wfFieldVal v) :
    '=' ∉ v.pyStr ∧ ',' ∉ v.pyStr ∧ '\n' ∉ v.pyStr := by
  cases v with
  | str s => exact ⟨hv.1, hv.2.1, hv.2.2.1⟩
  | int i => exact intStr_not_mem_special i
  | none => exact ⟨by decide, by decide, by decide⟩

/-- C5 amended: for a nonempty record with distinct well-formed field
names and well-formed values, decoding the encoded line reproduces the
record EXCEPT that every integer value comes back as its decimal string
(never the other way round — no string is ever normalised to an
integer). -/
theorem claim_C5 (r : PyDict) (hne : r ≠ [])
    (hwf : ∀ kv ∈ r, wfFieldKey kv.1 ∧ wfFieldVal kv.2)
    (hkeys : (dictKeys r).Nodup) :
    modify_data_to_dict (write_data_line r) =
      some (r.map (fun kv => (kv.1, stringifyVal kv.2))) := by
  have hsegnl : ∀ seg ∈ r.map (fun kv => kv.1 ++ '=' :: kv.2.pyStr), '\n' ∉ seg := by
    intro seg hseg
    obtain ⟨kv, hkv, rfl⟩ := List.mem_map.mp hseg
    intro hmem
    rcases List.mem_append.mp hmem with hm | hm
    · exact (hwf kv hkv).1.2.2.1 hm
    · rcases List.mem_cons.mp hm with hm | hm
      · exact absurd hm (by decide)
      · exact (pyStr_not_special kv.2 (hwf kv hkv).2).2.2 hm
  have hsegcomma : ∀ seg ∈ r.map (fun kv => kv.1 ++ '=' :: kv.2.pyStr), ',' ∉ seg := by
    intro seg hseg
    obtain ⟨kv, hkv, rfl⟩ := List.mem_map.mp hseg
    intro hmem
    rcases List.mem_append.mp hmem with hm | hm
    · exact (hwf kv hkv).1.2.1 hm
    · rcases List.mem_cons.mp hm with hm | hm
      · exact absurd hm (by decide)
      · exact (pyStr_not_special kv.2 (hwf kv hkv).2).2.1 hm
  have hnl : '\n' ∉ joinComma (r.map (fun kv => kv.1 ++ '=' :: kv.2.pyStr)) := by
    intro hmem
    rcases joinComma_mem _ _ hmem with h | ⟨s, hs, hcs⟩
    · exact absurd h (by decide)
    · exact hsegnl s hs hcs
  have hsne : r.map (fun kv => kv.1 ++ '=' :: kv.2.pyStr) ≠ [] := by
    intro h
    exact hne (List.map_eq_nil_iff.mp h)
  rw [modify_data_to_dict, write_data_line, pyRstripNl_append_nl,
    pyRstripNl_no_nl _ hnl, pySplit_joinComma _ hsne hsegcomma]
  have hpair : ∀ seg ∈ r.map (fun kv => kv.1 ++ '=' :: kv.2.pyStr),
      ∃ p v, pySplit '=' seg = [p, v] := by
    intro seg hseg
    obtain ⟨kv, hkv, rfl⟩ := List.mem_map.mp hseg
    exact ⟨kv.1, kv.2.pyStr,
      pySplit_pair '=' kv.1 kv.2.pyStr (hwf kv hkv).1.1
        (pyStr_not_special kv.2 (hwf kv hkv).2).1⟩
  have hstrip : ∀ kv ∈ r, segStripKey (kv.1 ++ '=' :: kv.2.pyStr) = kv.1 := by
    intro kv hkv
    rw [segStripKey,
      pySplit_pair '=' kv.1 kv.2.pyStr (hwf kv hkv).1.1
        (pyStr_not_special kv.2 (hwf kv hkv).2).1]
    exact (hwf kv hkv).1.2.2.2
  have hmapkeys : (r.map (fun kv => kv.1 ++ '=' :: kv.2.pyStr)).map segStripKey =
      dictKeys r := by
    rw [List.map_map, dictKeys]
    exact List.map_congr_left (fun kv hkv => hstrip kv hkv)
  rw [modifyGo_pairs _ [] hpair (hmapkeys ▸ hkeys) (by intro seg _; simp [dictKeys])]
  rw [List.nil_append, List.map_map]
  refine congrArg some (List.map_congr_left (fun kv hkv => ?_))
  show segDecode (kv.1 ++ '=' :: kv.2.pyStr) = (kv.1, stringifyVal kv.2)
  rw [segDecode,
    pySplit_pair '=' kv.1 kv.2.pyStr (hwf kv hkv).1.1
      (pyStr_not_special kv.2 (hwf kv hkv).2).1]
  cases hv : kv.2 with
  | none => simp [MVal.pyStr, stringifyVal, (hwf kv hkv).1.2.2.2]
  | int i =>
    have h1 : intStr i ≠ chars "None" := intStr_ne_none i
    simp [MVal.pyStr, stringifyVal, (hwf kv hkv).1.2.2.2, h1, intStr_pyStrip]
  | str s =>
    have hwv := hwf kv hkv
    rw [hv] at hwv
    have h1 : s ≠ chars "None" := hwv.2.2.2.2.2
    simp [MVal.pyStr, stringifyVal, (hwf kv hkv).1.2.2.2, h1, hwv.2.2.2.2.1]

/-- Witness for C5 at a concrete record: the record
`{"t": "on", "n": None, "v": -3}` round-trips with the int `-3`
stringified to `"-3"`. -/
theorem claim_C5_witness :
    modify_data_to_dict
        (write_data_line
          [(chars "t", MVal.str (chars "on")), (chars "n", MVal.none),
           (chars "v", MVal.int (-3))]) =
      some [(chars "t", MVal.str (chars "on")), (chars "n", MVal.none),
            (chars "v", MVal.str (chars "-3"))] := by
  have h := claim_C5
    [(chars "t", MVal.str (chars "on")), (chars "n", MVal.none),
     (chars "v", MVal.int (-3))]
    (by decide) (by decide) (by decide)
  rw [h]
  decide

/- ------------------------------------------------------------------
Claim C7
------------------------------------------------------------------ -/

/-- C7 counterexample: (a) the segment `"k=a=b"` contains `=`, so by the
claim decode should split at the FIRST `=` and succeed with value
`"a=b"` — but the code unpacks `datum.split("=")` into exactly two names
and raises on it; (b) `"v=12"` decodes to the STRING `"12"`, not the
integer `12`, so values that parse as integers are NOT returned as
integers. -/
theorem claim_C7_counterexample :
    modify_data_to_dict (chars "k=a=b\n") = Option.none ∧
    (∀ seg ∈ pySplit ',' (pyRstripNl (chars "k=a=b\n")), '=' ∈ seg) ∧
    modify_data_to_dict (chars "v=12\n") =
      some [(chars "v", MVal.str (chars "12"))] ∧
    MVal.str (chars "12") ≠ MVal.int 12 := by
  decide

/-- C7 amended: `modify_data_to_dict` strips trailing newlines, splits on
`,`, and requires every segment to split at `=` into exactly two parts —
it fails exactly when some segment does not (no `=` at all, or two or
more); on success every stored value is either null (a segment whose raw
value text is the literal `None`) or a whitespace-stripped string — an
integer never; and when the stripped keys are pairwise distinct the
result is exactly the segment-by-segment decoding `segDecode`. -/
theorem claim_C7 (line : Str) :
    (modify_data_to_dict line = Option.none ↔
      ∃ seg ∈ pySplit ',' (pyRstripNl line), (pySplit '=' seg).length ≠ 2) ∧
    (∀ m, modify_data_to_dict line = some m →
      (∀ kv ∈ m, kv.2 = MVal.none ∨ ∃ s, kv.2 = MVal.str (pyStrip s)) ∧
      (((pySplit ',' (pyRstripNl line)).map segStripKey).Nodup →
        m = (pySplit ',' (pyRstripNl line)).map segDecode)) := by
  constructor
  · exact modifyGo_eq_none_iff _ []
  · intro m hm
    constructor
    · intro kv hkv
      rcases modifyGo_mem _ [] m hm kv hkv with h | h
      · cases h
      · exact h
    · intro hnodup
      have hpair : ∀ seg ∈ pySplit ',' (pyRstripNl line),
          ∃ p v, pySplit '=' seg = [p, v] := by
        intro seg hseg
        by_contra hno
        have hlen : (pySplit '=' seg).length ≠ 2 := by
          intro hlen
          rcases hsp : pySplit '=' seg with _ | ⟨a, _ | ⟨b, _ | ⟨c, tl⟩⟩⟩ <;>
            rw [hsp] at hlen <;> first
            | (exact hno ⟨a, b, hsp⟩)
            | simp at hlen
        have : modify_data_to_dict line = Option.none :=
          (modifyGo_eq_none_iff _ []).mpr ⟨seg, hseg, hlen⟩
        rw [this] at hm
        cases hm
      have := modifyGo_pairs (pySplit ',' (pyRstripNl line)) [] hpair hnodup
        (by intro seg _; simp [dictKeys])
      rw [modify_data_to_dict] at hm
      rw [this, List.nil_append] at hm
      exact (Option.some.inj hm).symm

/-- Witness for C7 at a concrete line: `"a= x ,b=None\n"` decodes with
keys and value stripped and the literal `None` becoming null. -/
theorem claim_C7_witness :
    [(chars "a", MVal.str (chars "x")), (chars "b", MVal.none)] =
      (pySplit ',' (pyRstripNl (chars "a= x ,b=None\n"))).map segDecode := by
  exact ((claim_C7 (chars "a= x ,b=None\n")).2
    [(chars "a", MVal.str (chars "x")), (chars "b", MVal.none)]
    (by decide)).2 (by decide)

/- ------------------------------------------------------------------
Well-formedness and helper views for the metadata merge law (C3)
------------------------------------------------------------------ -/

/-- A key usable in the metadata file: nonempty, free of `=` and
newline, stable under `strip()`, and not starting a comment. -/
def wfMetaKey (k : Str) : Prop :=
  k ≠ [] ∧ '=' ∉ k ∧ '\n' ∉ k ∧ pyStrip k = k ∧ lineIsComment k = false

/-- A metadata value that survives the write/parse round trip:
a nonnegative int (its decimal text re-parses as the same int via
`convert_to_int_or_leave_unchanged`), or a string free of `=` and
newline, `strip()`-stable and not digits-only. -/
def wfMetaVal : MVal → Prop
  | MVal.int i => 0 ≤ i
  | MVal.str s => '=' ∉ s ∧ '\n' ∉ s ∧ pyStrip s = s ∧ pyIsdigitStr s = false
  | MVal.none => False

/-- A line of a well-formed metadata buffer: blank, comment, or
`key=value` with a well-formed key and an `=`-free value. -/
def wfMetaLine (l : Str) : Prop :=
  l = [] ∨ lineIsComment l = true ∨
    ∃ k v, l = k ++ '=' :: v ∧ wfMetaKey k ∧ '=' ∉ v ∧ '\n' ∉ v

instance : DecidablePred wfMetaKey := fun k => by
  unfold wfMetaKey
  infer_instance

instance : DecidablePred wfMetaVal := fun v => by
  cases v <;> unfold wfMetaVal <;> infer_instance

/-- The key the update scan sees on a line, when the line is scanned. -/
def lineKeyOf (l : Str) : Option Str :=
  if ¬lineIsComment l = true ∧ l ≠ [] then some (lineKey l) else Option.none

def linesKeys (ls : List Str) : List Str := ls.filterMap lineKeyOf

/-- The `(raw key, raw value)` pair a line contributes to the parse. -/
def lineKV (l : Str) : Option (Str × Str) :=
  if lineIsComment l = true then Option.none
  else
    match pySplit '=' l with
    | [p, v] => some (p, v)
    | _ => Option.none

def lookupFirst (ps : List (Str × Str)) (k : Str) : Option Str :=
  (ps.find? (fun p => p.1 = k)).map (fun p => p.2)

/-- How `update_metadata_lines` transforms one already-present line when
every key occurs on at most one line: a scanned line whose key is in the
update is rewritten in place, everything else is untouched. -/
def replLine (meta : PyDict) (l : Str) : Str :=
  if ¬lineIsComment l = true ∧ l ≠ [] ∧ lineKey l ∈ dictKeys meta then
    lineKey l ++ '=' :: (dictGetD meta (lineKey l) MVal.none).pyStr
  else l

/- digit round trip -/

theorem digitChar_toNat (n : Nat) (h : n < 10) : (digitChar n).toNat - 48 = n := by
  interval_cases n <;> rfl

theorem digitsToNat_append_one (a : Str) (c : Char) :
    digitsToNat (a ++ [c]) = 10 * digitsToNat a + (c.toNat - 48) := by
  unfold digitsToNat
  rw [List.foldl_append]
  rfl

theorem natDigitsAux_toNat (fuel n : Nat) (h : n < fuel) :
    digitsToNat (natDigitsAux fuel n) = n := by
  induction fuel generalizing n with
  | zero => omega
  | succ fuel ih =>
    by_cases hn : n < 10
    · rw [natDigitsAux, if_pos hn]
      show 10 * 0 + ((digitChar n).toNat - 48) = n
      rw [digitChar_toNat n hn]
      omega
    · rw [natDigitsAux, if_neg hn]
      have hdiv : n / 10 < n := Nat.div_lt_self (by omega) (by omega)
      rw [digitsToNat_append_one, ih (n / 10) (by omega),
        digitChar_toNat (n % 10) (Nat.mod_lt n (by omega))]
      omega

theorem natDigitsAux_ne_nil (fuel n : Nat) (h : n < fuel) :
    natDigitsAux fuel n ≠ [] := by
  cases fuel with
  | zero => omega
  | succ fuel =>
    rw [natDigitsAux]
    by_cases hn : n < 10
    · simp [hn]
    · simp [hn]

/-- Re-parsing the written text of a well-formed metadata value gives the
value back. -/
theorem conv_strip_pyStr (v : MVal) (hv : wfMetaVal v) :
    convert_to_int_or_leave_unchanged (pyStrip v.pyStr) = v := by
  cases v with
  | none => exact absurd hv (by simp [wfMetaVal])
  | str s =>
    have h := hv
    rw [wfMetaVal] at h
    rw [MVal.pyStr, h.2.2.1, convert_to_int_or_leave_unchanged, if_neg (by simp [h.2.2.2])]
  | int i =>
    have h : ¬i < 0 := by
      have h0 := hv
      rw [wfMetaVal] at h0
      omega
    have hs : MVal.pyStr (MVal.int i) = natDigits i.toNat := by
      rw [MVal.pyStr, intStr, if_neg h]
    have hstrip : pyStrip (natDigits i.toNat) = natDigits i.toNat := by
      have h2 := intStr_pyStrip i
      rw [intStr, if_neg h] at h2
      exact h2
    have hdig : pyIsdigitStr (natDigits i.toNat) = true := by
      have h1 : natDigits i.toNat ≠ [] := natDigitsAux_ne_nil _ _ (Nat.lt_succ_self _)
      rw [pyIsdigitStr]
      cases hnd : natDigits i.toNat with
      | nil => exact absurd hnd h1
      | cons c cs =>
        simp only [List.isEmpty_cons, Bool.not_false, Bool.true_and, List.all_eq_true]
        intro x hx
        exact natDigitsAux_mem_digit _ _ x (hnd ▸ hx)
    rw [hs, hstrip, convert_to_int_or_leave_unchanged, if_pos hdig, natDigits,
      natDigitsAux_toNat _ _ (Nat.lt_succ_self _)]
    congr 1
    omega

theorem lineIsComment_append (k x : Str) (hk : k ≠ []) :
    lineIsComment (k ++ x) = lineIsComment k := by
  cases k with
  | nil => exact absurd rfl hk
  | cons c cs => rfl

/-- `replLineKs meta ks` is the pointwise effect of the update scan when
the pending key set is `ks` and no key matches twice. -/
def replLineKs (meta : PyDict) (ks : List Str) (l : Str) : Str :=
  if ¬lineIsComment l = true ∧ l ≠ [] ∧ lineKey l ∈ ks then
    lineKey l ++ '=' :: (dictGetD meta (lineKey l) MVal.none).pyStr
  else l

theorem updLinesGo_wf (meta : PyDict) :
    ∀ (lines : List Str) (ks : List Str),
      (∀ l ∈ lines, wfMetaLine l) →
      (linesKeys lines).Nodup →
      ks.Nodup →
      updLinesGo meta lines ks =
        (lines.map (replLineKs meta ks),
         ks.filter (fun k => k ∉ linesKeys lines)) := by
  intro lines
  induction lines with
  | nil =>
    intro ks _ _ _
    simp [updLinesGo, linesKeys]
  | cons l ls ih =>
    intro ks hwf hnodup hks
    have hwfrest : ∀ x ∈ ls, wfMetaLine x := fun x hx => hwf x (List.mem_cons_of_mem l hx)
    rcases hwf l (List.mem_cons_self l ls) with hblank | hcomment | ⟨k, v, rfl, hk, hveq, hvnl⟩
    · subst hblank
      have hcond : ¬(¬lineIsComment ([] : Str) = true ∧ ([] : Str) ≠ []) := by simp
      have hkeys : linesKeys (([] : Str) :: ls) = linesKeys ls := by
        rw [linesKeys, List.filterMap_cons]
        simp [lineKeyOf, linesKeys]
      rw [hkeys] at hnodup
      simp only [updLinesGo, if_neg hcond, ih ks hwfrest hnodup hks, List.map_cons]
      rw [hkeys]
      have : replLineKs meta ks [] = [] := by simp [replLineKs]
      rw [this]
    · have hcond : ¬(¬lineIsComment l = true ∧ l ≠ []) := by simp [hcomment]
      have hkeys : linesKeys (l :: ls) = linesKeys ls := by
        rw [linesKeys, List.filterMap_cons]
        simp [lineKeyOf, hcomment, linesKeys]
      rw [hkeys] at hnodup
      simp only [updLinesGo, if_neg hcond, ih ks hwfrest hnodup hks, List.map_cons]
      rw [hkeys]
      have : replLineKs meta ks l = l := by simp [replLineKs, hcomment]
      rw [this]
    · have hlne : k ++ '=' :: v ≠ [] := by simp
      have hcomm : lineIsComment (k ++ '=' :: v) = false := by
        rw [lineIsComment_append k _ hk.1]
        exact hk.2.2.2.2
      have hcond : ¬lineIsComment (k ++ '=' :: v) = true ∧ (k ++ '=' :: v) ≠ [] :=
        ⟨by simp [hcomm], hlne⟩
      have hlk : lineKey (k ++ '=' :: v) = k := lineKey_pair k v hk.2.1
      have hkeys : linesKeys ((k ++ '=' :: v) :: ls) = k :: linesKeys ls := by
        rw [linesKeys, List.filterMap_cons]
        have : lineKeyOf (k ++ '=' :: v) = some k := by
          rw [lineKeyOf, if_pos hcond, hlk]
        rw [this]
        rfl
      have hknotin : k ∉ linesKeys ls := by
        rw [hkeys] at hnodup
        exact (List.nodup_cons.mp hnodup).1
      have hnodup2 : (linesKeys ls).Nodup := by
        rw [hkeys] at hnodup
        exact (List.nodup_cons.mp hnodup).2
      have hscanned : ∀ x ∈ ls, ¬lineIsComment x = true → x ≠ [] →
          lineKey x ∈ linesKeys ls := by
        intro x hx hxc hxe
        rw [linesKeys]
        exact List.mem_filterMap.mpr ⟨x, hx, by rw [lineKeyOf, if_pos ⟨hxc, hxe⟩]⟩
      by_cases hmem : k ∈ ks
      · simp only [updLinesGo, if_pos hcond, hlk, if_pos hmem,
          ih (ks.erase k) hwfrest hnodup2 (hks.erase k), List.map_cons]
        rw [hkeys]
        have h1 : replLineKs meta ks (k ++ '=' :: v) =
            k ++ '=' :: (dictGetD meta k MVal.none).pyStr := by
          rw [replLineKs, if_pos ⟨hcond.1, hcond.2, by rw [hlk]; exact hmem⟩, hlk]
        rw [h1]
        have h2 : ls.map (replLineKs meta (ks.erase k)) = ls.map (replLineKs meta ks) := by
          refine List.map_congr_left (fun x hx => ?_)
          by_cases hxc : ¬lineIsComment x = true ∧ x ≠ []
          · have hxk : lineKey x ≠ k := by
              intro hc
              exact hknotin (hc ▸ hscanned x hx hxc.1 hxc.2)
            rw [replLineKs, replLineKs]
            by_cases hin : lineKey x ∈ ks
            · rw [if_pos ⟨hxc.1, hxc.2, (List.mem_erase_of_ne hxk).mpr hin⟩,
                if_pos ⟨hxc.1, hxc.2, hin⟩]
            · rw [if_neg, if_neg]
              · rintro ⟨-, -, hin2⟩
                exact hin hin2
              · rintro ⟨-, -, hin2⟩
                exact hin ((List.mem_erase_of_ne hxk).mp hin2)
          · rw [replLineKs, replLineKs, if_neg, if_neg]
            · rintro ⟨hc1, hc2, -⟩
              exact hxc ⟨hc1, hc2⟩
            · rintro ⟨hc1, hc2, -⟩
              exact hxc ⟨hc1, hc2⟩
        rw [h2]
        have h3 : (ks.erase k).filter (fun x => x ∉ linesKeys ls) =
            ks.filter (fun x => x ∉ k :: linesKeys ls) := by
          rw [List.Nodup.erase_eq_filter hks, List.filter_filter]
          refine List.filter_congr (fun x hx => ?_)
          simp only [List.mem_cons, decide_not, not_or]
          by_cases hxk : x = k
          · simp [hxk]
          · simp [hxk]
        rw [h3]
      · simp only [updLinesGo, if_pos hcond, hlk, if_neg hmem,
          ih ks hwfrest hnodup2 hks, List.map_cons]
        rw [hkeys]
        have h1 : replLineKs meta ks (k ++ '=' :: v) = k ++ '=' :: v := by
          rw [replLineKs, if_neg]
          rintro ⟨-, -, hin⟩
          exact hmem (hlk ▸ hin)
        rw [h1]
        have h3 : ks.filter (fun x => x ∉ linesKeys ls) =
            ks.filter (fun x => x ∉ k :: linesKeys ls) := by
          refine List.filter_congr (fun x hx => ?_)
          have hxk : x ≠ k := fun hc => hmem (hc ▸ hx)
          simp only [List.mem_cons, decide_not, not_or]
          simp [hxk]
        rw [h3]

theorem lineKV_blank : lineKV [] = Option.none := rfl

theorem lineKV_comment (l : Str) (h : lineIsComment l = true) :
    lineKV l = Option.none := by
  rw [lineKV, if_pos h]

theorem lineKV_pair (k v : Str) (hk : wfMetaKey k) (hv : '=' ∉ v) :
    lineKV (k ++ '=' :: v) = some (k, v) := by
  rw [lineKV, if_neg, pySplit_pair '=' k v hk.2.1 hv]
  rw [lineIsComment_append k _ hk.1, hk.2.2.2.2]
  simp

theorem lookupFirst_cons_self (ps : List (Str × Str)) (k v : Str) :
    lookupFirst ((k, v) :: ps) k = some v := by
  rw [lookupFirst, List.find?_cons_of_pos _ (by simp)]
  rfl

theorem lookupFirst_cons_ne (ps : List (Str × Str)) (k k' v : Str) (h : k' ≠ k) :
    lookupFirst ((k, v) :: ps) k' = lookupFirst ps k' := by
  rw [lookupFirst, List.find?_cons_of_neg _ (by simp [Ne.symm h]), lookupFirst]

theorem lookupFirst_eq_none (ps : List (Str × Str)) (k : Str)
    (h : k ∉ ps.map (fun p => p.1)) : lookupFirst ps k = Option.none := by
  induction ps with
  | nil => rfl
  | cons p rest ih =>
    obtain ⟨a, b⟩ := p
    have ha : k ≠ a := by
      intro hc
      exact h (by rw [hc]; exact List.mem_cons_self a _)
    rw [lookupFirst_cons_ne rest a k b ha]
    exact ih (fun hm => h (List.mem_cons_of_mem a hm))

theorem pairsKeys_eq (ls : List Str) (hwf : ∀ l ∈ ls, wfMetaLine l) :
    (ls.filterMap lineKV).map (fun p => p.1) = linesKeys ls := by
  induction ls with
  | nil => rfl
  | cons l rest ih =>
    have hwfrest : ∀ x ∈ rest, wfMetaLine x := fun x hx => hwf x (List.mem_cons_of_mem l hx)
    rcases hwf l (List.mem_cons_self l rest) with hblank | hcomment | ⟨k, v, rfl, hk, hveq, hvnl⟩
    · subst hblank
      rw [linesKeys, List.filterMap_cons, List.filterMap_cons, lineKV_blank]
      have : lineKeyOf [] = Option.none := by rw [lineKeyOf]; simp
      rw [this]
      exact ih hwfrest
    · rw [linesKeys, List.filterMap_cons, List.filterMap_cons, lineKV_comment l hcomment]
      have : lineKeyOf l = Option.none := by rw [lineKeyOf]; simp [hcomment]
      rw [this]
      exact ih hwfrest
    · have hcomm : lineIsComment (k ++ '=' :: v) = false := by
        rw [lineIsComment_append k _ hk.1]
        exact hk.2.2.2.2
      rw [linesKeys, List.filterMap_cons, List.filterMap_cons,
        lineKV_pair k v hk hveq]
      have : lineKeyOf (k ++ '=' :: v) = some k := by
        rw [lineKeyOf, if_pos ⟨by simp [hcomm], by simp⟩, lineKey_pair k v hk.2.1]
      rw [this, List.map_cons]
      rw [linesKeys] at ih
      rw [ih hwfrest]

theorem parse_wf :
    ∀ (lines : List Str) (m : PyDict),
      (∀ l ∈ lines, wfMetaLine l) →
      (linesKeys lines).Nodup →
      ∃ M, retrieveGo [] lines m = some M ∧
        ∀ k, dictGet M k =
          match lookupFirst (lines.filterMap lineKV) k with
          | some rawv => some (convert_to_int_or_leave_unchanged (pyStrip rawv))
          | Option.none => dictGet m k := by
  intro lines
  induction lines with
  | nil =>
    intro m _ _
    exact ⟨m, rfl, fun k => rfl⟩
  | cons l ls ih =>
    intro m hwf hnodup
    have hwfrest : ∀ x ∈ ls, wfMetaLine x := fun x hx => hwf x (List.mem_cons_of_mem l hx)
    rcases hwf l (List.mem_cons_self l ls) with hblank | hcomment | ⟨k0, v0, rfl, hk, hveq, hvnl⟩
    · subst hblank
      have hkeys : linesKeys (([] : Str) :: ls) = linesKeys ls := by
        rw [linesKeys, List.filterMap_cons]
        have : lineKeyOf [] = Option.none := by rw [lineKeyOf]; simp
        rw [this]
        rfl
      rw [hkeys] at hnodup
      obtain ⟨M, hM, hval⟩ := ih m hwfrest hnodup
      refine ⟨M, ?_, ?_⟩
      · rw [retrieveGo, if_neg (by simp)]
        exact hM
      · intro k
        rw [List.filterMap_cons, lineKV_blank]
        exact hval k
    · have hkeys : linesKeys (l :: ls) = linesKeys ls := by
        rw [linesKeys, List.filterMap_cons]
        have : lineKeyOf l = Option.none := by rw [lineKeyOf]; simp [hcomment]
        rw [this]
        rfl
      rw [hkeys] at hnodup
      obtain ⟨M, hM, hval⟩ := ih m hwfrest hnodup
      refine ⟨M, ?_, ?_⟩
      · rw [retrieveGo, if_neg (by simp [hcomment])]
        exact hM
      · intro k
        rw [List.filterMap_cons, lineKV_comment l hcomment]
        exact hval k
    · have hcomm : lineIsComment (k0 ++ '=' :: v0) = false := by
        rw [lineIsComment_append k0 _ hk.1]
        exact hk.2.2.2.2
      have hcond : ¬lineIsComment (k0 ++ '=' :: v0) = true ∧ '=' ∈ (k0 ++ '=' :: v0) :=
        ⟨by simp [hcomm], by simp⟩
      have hkeys : linesKeys ((k0 ++ '=' :: v0) :: ls) = k0 :: linesKeys ls := by
        rw [linesKeys, List.filterMap_cons]
        have : lineKeyOf (k0 ++ '=' :: v0) = some k0 := by
          rw [lineKeyOf, if_pos ⟨by simp [hcomm], by simp⟩, lineKey_pair k0 v0 hk.2.1]
        rw [this]
        rfl
      rw [hkeys] at hnodup
      have hknotin : k0 ∉ linesKeys ls := (List.nodup_cons.mp hnodup).1
      have hnodup2 : (linesKeys ls).Nodup := (List.nodup_cons.mp hnodup).2
      obtain ⟨M, hM, hval⟩ :=
        ih (dictInsert m (pyStrip k0) (convert_to_int_or_leave_unchanged (pyStrip v0)))
          hwfrest hnodup2
      refine ⟨M, ?_, ?_⟩
      · rw [retrieveGo, if_pos hcond, pySplit_pair '=' k0 v0 hk.2.1 hveq]
        simp only [List.nil_eq, true_or, if_pos]
        exact hM
      · intro k
        rw [List.filterMap_cons, lineKV_pair k0 v0 hk hveq]
        by_cases hkk : k = k0
        · subst hkk
          rw [lookupFirst_cons_self, hval k]
          have hnone : lookupFirst (ls.filterMap lineKV) k = Option.none := by
            refine lookupFirst_eq_none _ _ ?_
            rw [pairsKeys_eq ls hwfrest]
            exact hknotin
          rw [hnone]
          show dictGet (dictInsert m (pyStrip k)
              (convert_to_int_or_leave_unchanged (pyStrip v0))) k =
            some (convert_to_int_or_leave_unchanged (pyStrip v0))
          rw [hk.2.2.2.1]
          exact dictGet_dictInsert_self m k _
        · rw [lookupFirst_cons_ne _ _ _ _ hkk, hval k]
          cases lookupFirst (ls.filterMap lineKV) k with
          | some rawv => rfl
          | none =>
            show dictGet (dictInsert m (pyStrip k0) _) k = dictGet m k
            exact dictGet_dictInsert_ne m (pyStrip k0) k _ (by rw [hk.2.2.2.1]; exact hkk)

theorem lookupFirst_append (ps qs : List (Str × Str)) (k : Str) :
    lookupFirst (ps ++ qs) k =
      match lookupFirst ps k with
      | some v => some v
      | Option.none => lookupFirst qs k := by
  induction ps with
  | nil => rfl
  | cons p rest ih =>
    obtain ⟨a, b⟩ := p
    by_cases ha : k = a
    · subst ha
      rw [List.cons_append, lookupFirst_cons_self, lookupFirst_cons_self]
    · rw [List.cons_append, lookupFirst_cons_ne _ _ _ _ ha,
        lookupFirst_cons_ne _ _ _ _ ha, ih]

theorem dictGet_of_mem_keys (d : PyDict) (k : Str) (h : k ∈ dictKeys d) :
    ∃ v, dictGet d k = some v ∧ (k, v) ∈ d := by
  induction d with
  | nil => cases h
  | cons kv rest ih =>
    obtain ⟨a, b⟩ := kv
    by_cases ha : a = k
    · subst ha
      exact ⟨b, by rw [dictGet, if_pos rfl], List.mem_cons_self _ _⟩
    · have h2 : k ∈ dictKeys rest := by
        rcases List.mem_cons.mp h with hc | hc
        · exact absurd hc.symm ha
        · exact hc
      obtain ⟨v, hv, hmem⟩ := ih h2
      exact ⟨v, by rw [dictGet, if_neg ha]; exact hv, List.mem_cons_of_mem _ hmem⟩

theorem dictGet_none_of_not_mem_keys (d : PyDict) (k : Str) (h : k ∉ dictKeys d) :
    dictGet d k = Option.none := by
  induction d with
  | nil => rfl
  | cons kv rest ih =>
    obtain ⟨a, b⟩ := kv
    have ha : ¬a = k := fun hc => h (by rw [hc]; exact List.mem_cons_self k _)
    rw [dictGet, if_neg ha]
    exact ih (fun hm => h (List.mem_cons_of_mem a hm))

/-- The written text of a well-formed metadata value contains no `=`
and no newline. -/
theorem pyStr_wfMetaVal (v : MVal) (hv : wfMetaVal v) :
    '=' ∉ v.pyStr ∧ '\n' ∉ v.pyStr := by
  cases v with
  | none => exact absurd hv (by simp [wfMetaVal])
  | int i => exact ⟨(intStr_not_mem_special i).1, (intStr_not_mem_special i).2.2⟩
  | str s =>
    have h := hv
    rw [wfMetaVal] at h
    exact ⟨h.1, h.2.1⟩

theorem readlinesAux_shape :
    ∀ (s cur : Str), '\n' ∉ cur → ∀ l ∈ readlinesAux s cur,
      ∃ core, '\n' ∉ core ∧ (l = core ++ ['\n'] ∨ l = core) := by
  intro s
  induction s with
  | nil =>
    intro cur hcur l hl
    rw [readlinesAux] at hl
    by_cases hc : cur = []
    · rw [if_pos hc] at hl
      cases hl
    · rw [if_neg hc] at hl
      refine ⟨cur.reverse, fun hm => hcur (List.mem_reverse.mp hm),
        Or.inr (List.mem_singleton.mp hl)⟩
  | cons c cs ih =>
    intro cur hcur l hl
    rw [readlinesAux] at hl
    by_cases hc : c = '\n'
    · rw [if_pos hc] at hl
      rcases List.mem_cons.mp hl with rfl | hl2
      · exact ⟨cur.reverse, fun hm => hcur (List.mem_reverse.mp hm), Or.inl rfl⟩
      · exact ih [] (by simp) l hl2
    · rw [if_neg hc] at hl
      have hcur2 : '\n' ∉ c :: cur := by
        intro hm
        rcases List.mem_cons.mp hm with hm | hm
        · exact hc hm.symm
        · exact hcur hm
      exact ih (c :: cur) hcur2 l hl

theorem retrieve_metadata_lines_no_nl (content : Str) :
    ∀ l ∈ retrieve_metadata_lines content, '\n' ∉ l := by
  intro l hl
  rw [retrieve_metadata_lines] at hl
  obtain ⟨raw, hraw, rfl⟩ := List.mem_map.mp hl
  obtain ⟨core, hcore, hshape | hshape⟩ :=
    readlinesAux_shape content [] (by simp) raw hraw
  · rw [hshape, pyRstripNl_append_nl, pyRstripNl_no_nl _ hcore]
    exact hcore
  · rw [hshape, pyRstripNl_no_nl _ hcore]
    exact hcore

theorem readlinesAux_line :
    ∀ (l : Str) (s cur : Str), '\n' ∉ l →
      readlinesAux (l ++ '\n' :: s) cur =
        (cur.reverse ++ l ++ ['\n']) :: readlinesAux s [] := by
  intro l
  induction l with
  | nil =>
    intro s cur _
    rw [List.nil_append, readlinesAux, if_pos rfl, List.append_nil]
  | cons c l2 ih =>
    intro s cur hnl
    have hc : ¬c = '\n' := fun hc => hnl (hc ▸ List.mem_cons_self c l2)
    rw [List.cons_append, readlinesAux, if_neg hc,
      ih s (c :: cur) (fun hm => hnl (List.mem_cons_of_mem c hm))]
    simp

theorem pyReadlines_joinLines (lines : List Str)
    (h : ∀ l ∈ lines, '\n' ∉ l) :
    pyReadlines (joinLines lines) = lines.map (fun l => l ++ ['\n']) := by
  induction lines with
  | nil => rfl
  | cons l rest ih =>
    have hjoin : joinLines (l :: rest) = l ++ '\n' :: joinLines rest := by
      rw [joinLines, List.map_cons, List.flatten_cons, List.append_assoc]
      rfl
    rw [hjoin, pyReadlines, readlinesAux_line l _ [] (h l (List.mem_cons_self l rest))]
    rw [List.reverse_nil, List.nil_append]
    rw [show readlinesAux (joinLines rest) [] = pyReadlines (joinLines rest) from rfl,
      ih (fun x hx => h x (List.mem_cons_of_mem l hx))]
    rfl

theorem retrieve_metadata_lines_joinLines (lines : List Str)
    (h : ∀ l ∈ lines, '\n' ∉ l) :
    retrieve_metadata_lines (joinLines lines) = lines := by
  rw [retrieve_metadata_lines, pyReadlines_joinLines lines h, List.map_map]
  have : lines.map (pyRstripNl ∘ fun l => l ++ ['\n']) = lines.map (fun l => l) := by
    refine List.map_congr_left (fun l hl => ?_)
    show pyRstripNl (l ++ ['\n']) = l
    rw [pyRstripNl_append_nl, pyRstripNl_no_nl _ (h l hl)]
  rw [this]
  simp

theorem lookupFirst_some_of_mem (ps : List (Str × Str)) (k : Str)
    (h : k ∈ ps.map (fun p => p.1)) : ∃ v, lookupFirst ps k = some v := by
  induction ps with
  | nil => cases h
  | cons p rest ih =>
    obtain ⟨a, b⟩ := p
    by_cases ha : k = a
    · subst ha
      exact ⟨b, lookupFirst_cons_self rest k b⟩
    · have h2 : k ∈ rest.map (fun p => p.1) := by
        rcases List.mem_cons.mp h with hc | hc
        · exact absurd hc ha
        · exact hc
      obtain ⟨v, hv⟩ := ih h2
      exact ⟨v, by rw [lookupFirst_cons_ne _ _ _ _ ha]; exact hv⟩

theorem lookup_repl (meta : PyDict) (hmv : ∀ kv ∈ meta, wfMetaVal kv.2) :
    ∀ (ls : List Str), (∀ l ∈ ls, wfMetaLine l) → ∀ k,
      lookupFirst ((ls.map (replLineKs meta (dictKeys meta))).filterMap lineKV) k =
        match lookupFirst (ls.filterMap lineKV) k with
        | some v =>
          some (if k ∈ dictKeys meta then (dictGetD meta k MVal.none).pyStr else v)
        | Option.none => Option.none := by
  intro ls
  induction ls with
  | nil => intro _ k; rfl
  | cons l rest ih =>
    intro hwf k
    have hwfrest : ∀ x ∈ rest, wfMetaLine x := fun x hx => hwf x (List.mem_cons_of_mem l hx)
    rcases hwf l (List.mem_cons_self l rest) with hblank | hcomment | ⟨k0, v0, rfl, hk, hveq, hvnl⟩
    · subst hblank
      have hrepl : replLineKs meta (dictKeys meta) [] = [] := by simp [replLineKs]
      rw [List.map_cons, hrepl, List.filterMap_cons, List.filterMap_cons, lineKV_blank]
      exact ih hwfrest k
    · have hrepl : replLineKs meta (dictKeys meta) l = l := by simp [replLineKs, hcomment]
      rw [List.map_cons, hrepl, List.filterMap_cons, List.filterMap_cons,
        lineKV_comment l hcomment]
      exact ih hwfrest k
    · have hcomm : lineIsComment (k0 ++ '=' :: v0) = false := by
        rw [lineIsComment_append k0 _ hk.1]
        exact hk.2.2.2.2
      have hlk : lineKey (k0 ++ '=' :: v0) = k0 := lineKey_pair k0 v0 hk.2.1
      by_cases hmem : k0 ∈ dictKeys meta
      · obtain ⟨v, hv, hvmem⟩ := dictGet_of_mem_keys meta k0 hmem
        have hgetd : dictGetD meta k0 MVal.none = v := by rw [dictGetD, hv]; rfl
        have hwfv : wfMetaVal v := hmv (k0, v) hvmem
        have hrepl : replLineKs meta (dictKeys meta) (k0 ++ '=' :: v0) =
            k0 ++ '=' :: v.pyStr := by
          rw [replLineKs, if_pos ⟨by simp [hcomm], by simp, by rw [hlk]; exact hmem⟩,
            hlk, hgetd]
        rw [List.map_cons, hrepl, List.filterMap_cons, List.filterMap_cons,
          lineKV_pair k0 v0 hk hveq,
          lineKV_pair k0 v.pyStr hk (pyStr_wfMetaVal v hwfv).1]
        by_cases hkk : k = k0
        · subst hkk
          rw [lookupFirst_cons_self, lookupFirst_cons_self]
          show some v.pyStr =
            some (if k ∈ dictKeys meta then (dictGetD meta k MVal.none).pyStr else v0)
          rw [if_pos hmem, hgetd]
        · rw [lookupFirst_cons_ne _ _ _ _ hkk, lookupFirst_cons_ne _ _ _ _ hkk]
          exact ih hwfrest k
      · have hrepl : replLineKs meta (dictKeys meta) (k0 ++ '=' :: v0) =
            k0 ++ '=' :: v0 := by
          rw [replLineKs, if_neg]
          rintro ⟨-, -, hin⟩
          exact hmem (hlk ▸ hin)
        rw [List.map_cons, hrepl, List.filterMap_cons, List.filterMap_cons,
          lineKV_pair k0 v0 hk hveq]
        by_cases hkk : k = k0
        · subst hkk
          rw [lookupFirst_cons_self, lookupFirst_cons_self]
          show some v0 =
            some (if k ∈ dictKeys meta then (dictGetD meta k MVal.none).pyStr else v0)
          rw [if_neg hmem]
        · rw [lookupFirst_cons_ne _ _ _ _ hkk, lookupFirst_cons_ne _ _ _ _ hkk]
          exact ih hwfrest k

theorem lookup_tail (meta : PyDict)
    (hmk : ∀ kv ∈ meta, wfMetaKey kv.1) (hmv : ∀ kv ∈ meta, wfMetaVal kv.2) :
    ∀ (ks : List Str), (∀ x ∈ ks, x ∈ dictKeys meta) → ∀ k,
      lookupFirst
          ((ks.map (fun x => x ++ '=' :: (dictGetD meta x MVal.none).pyStr)).filterMap
            lineKV) k =
        if k ∈ ks then some ((dictGetD meta k MVal.none).pyStr) else Option.none := by
  intro ks
  induction ks with
  | nil =>
    intro _ k
    rw [if_neg (List.not_mem_nil k)]
    rfl
  | cons x rest ih =>
    intro hks k
    have hxmem := hks x (List.mem_cons_self x rest)
    obtain ⟨v, hv, hvmem⟩ := dictGet_of_mem_keys meta x hxmem
    have hgetd : dictGetD meta x MVal.none = v := by rw [dictGetD, hv]; rfl
    have hwfk : wfMetaKey x := hmk (x, v) hvmem
    have hwfv : wfMetaVal v := hmv (x, v) hvmem
    rw [List.map_cons, List.filterMap_cons, hgetd,
      lineKV_pair x v.pyStr hwfk (pyStr_wfMetaVal v hwfv).1]
    by_cases hkx : k = x
    · subst hkx
      rw [lookupFirst_cons_self, if_pos (List.mem_cons_self k rest), hgetd]
    · rw [lookupFirst_cons_ne _ _ _ _ hkx,
        ih (fun y hy => hks y (List.mem_cons_of_mem x hy)) k]
      by_cases hkrest : k ∈ rest
      · rw [if_pos hkrest, if_pos (List.mem_cons_of_mem x hkrest)]
      · rw [if_neg hkrest, if_neg]
        intro hm
        rcases List.mem_cons.mp hm with hc | hc
        · exact hkx hc
        · exact hkrest hc

theorem wf_replLine (meta : PyDict) (hmv : ∀ kv ∈ meta, wfMetaVal kv.2)
    (l : Str) (hl : wfMetaLine l) :
    wfMetaLine (replLineKs meta (dictKeys meta) l) := by
  rcases hl with hblank | hcomment | ⟨k0, v0, rfl, hk, hveq, hvnl⟩
  · subst hblank
    have : replLineKs meta (dictKeys meta) [] = [] := by simp [replLineKs]
    rw [this]
    exact Or.inl rfl
  · have : replLineKs meta (dictKeys meta) l = l := by simp [replLineKs, hcomment]
    rw [this]
    exact Or.inr (Or.inl hcomment)
  · have hlk : lineKey (k0 ++ '=' :: v0) = k0 := lineKey_pair k0 v0 hk.2.1
    have hcomm : lineIsComment (k0 ++ '=' :: v0) = false := by
      rw [lineIsComment_append k0 _ hk.1]
      exact hk.2.2.2.2
    by_cases hmem : k0 ∈ dictKeys meta
    · obtain ⟨v, hv, hvmem⟩ := dictGet_of_mem_keys meta k0 hmem
      have hgetd : dictGetD meta k0 MVal.none = v := by rw [dictGetD, hv]; rfl
      have hwfv : wfMetaVal v := hmv (k0, v) hvmem
      have hrepl : replLineKs meta (dictKeys meta) (k0 ++ '=' :: v0) =
          k0 ++ '=' :: v.pyStr := by
        rw [replLineKs, if_pos ⟨by simp [hcomm], by simp, by rw [hlk]; exact hmem⟩,
          hlk, hgetd]
      rw [hrepl]
      exact Or.inr (Or.inr ⟨k0, v.pyStr, rfl, hk, (pyStr_wfMetaVal v hwfv).1,
        (pyStr_wfMetaVal v hwfv).2⟩)
    · have hrepl : replLineKs meta (dictKeys meta) (k0 ++ '=' :: v0) =
          k0 ++ '=' :: v0 := by
        rw [replLineKs, if_neg]
        rintro ⟨-, -, hin⟩
        exact hmem (hlk ▸ hin)
      rw [hrepl]
      exact Or.inr (Or.inr ⟨k0, v0, rfl, hk, hveq, hvnl⟩)

theorem linesKeys_map_repl (meta : PyDict) :
    ∀ (ls : List Str), (∀ l ∈ ls, wfMetaLine l) →
      linesKeys (ls.map (replLineKs meta (dictKeys meta))) = linesKeys ls := by
  intro ls
  induction ls with
  | nil => intro _; rfl
  | cons l rest ih =>
    intro hwf
    have hwfrest : ∀ x ∈ rest, wfMetaLine x := fun x hx => hwf x (List.mem_cons_of_mem l hx)
    rw [List.map_cons, linesKeys, List.filterMap_cons, linesKeys, List.filterMap_cons]
    have hsame : lineKeyOf (replLineKs meta (dictKeys meta) l) = lineKeyOf l := by
      rcases hwf l (List.mem_cons_self l rest) with hblank | hcomment | ⟨k0, v0, rfl, hk, hveq, hvnl⟩
      · subst hblank
        simp [replLineKs]
      · simp [replLineKs, hcomment]
      · have hlk : lineKey (k0 ++ '=' :: v0) = k0 := lineKey_pair k0 v0 hk.2.1
        have hcomm : lineIsComment (k0 ++ '=' :: v0) = false := by
          rw [lineIsComment_append k0 _ hk.1]
          exact hk.2.2.2.2
        by_cases hmem : k0 ∈ dictKeys meta
        · have hrepl : replLineKs meta (dictKeys meta) (k0 ++ '=' :: v0) =
              k0 ++ '=' :: (dictGetD meta k0 MVal.none).pyStr := by
            rw [replLineKs, if_pos ⟨by simp [hcomm], by simp, by rw [hlk]; exact hmem⟩, hlk]
          have hcomm2 : lineIsComment (k0 ++ '=' :: (dictGetD meta k0 MVal.none).pyStr) = false := by
            rw [lineIsComment_append k0 _ hk.1]
            exact hk.2.2.2.2
          rw [hrepl, lineKeyOf, lineKeyOf,
            if_pos ⟨by simp [hcomm2], by simp⟩, if_pos ⟨by simp [hcomm], by simp⟩,
            lineKey_pair k0 _ hk.2.1, hlk]
        · have hrepl : replLineKs meta (dictKeys meta) (k0 ++ '=' :: v0) =
              k0 ++ '=' :: v0 := by
            rw [replLineKs, if_neg]
            rintro ⟨-, -, hin⟩
            exact hmem (hlk ▸ hin)
          rw [hrepl]
    rw [hsame]
    cases lineKeyOf l with
    | none => exact ih hwfrest
    | some k =>
      show k :: linesKeys (rest.map (replLineKs meta (dictKeys meta))) =
        k :: linesKeys rest
      rw [ih hwfrest]

theorem linesKeys_tail (meta : PyDict)
    (hmk : ∀ kv ∈ meta, wfMetaKey kv.1) :
    ∀ (ks : List Str), (∀ x ∈ ks, x ∈ dictKeys meta) →
      linesKeys (ks.map (fun x => x ++ '=' :: (dictGetD meta x MVal.none).pyStr)) = ks := by
  intro ks
  induction ks with
  | nil => intro _; rfl
  | cons x rest ih =>
    intro hks
    obtain ⟨v, hv, hvmem⟩ := dictGet_of_mem_keys meta x (hks x (List.mem_cons_self x rest))
    have hwfk : wfMetaKey x := hmk (x, v) hvmem
    have hcomm : lineIsComment (x ++ '=' :: (dictGetD meta x MVal.none).pyStr) = false := by
      rw [lineIsComment_append x _ hwfk.1]
      exact hwfk.2.2.2.2
    rw [List.map_cons, linesKeys, List.filterMap_cons]
    have : lineKeyOf (x ++ '=' :: (dictGetD meta x MVal.none).pyStr) = some x := by
      rw [lineKeyOf, if_pos ⟨by simp [hcomm], by simp⟩, lineKey_pair x _ hwfk.2.1]
    rw [this]
    show x :: linesKeys (rest.map (fun y => y ++ '=' :: (dictGetD meta y MVal.none).pyStr)) =
      x :: rest
    rw [ih (fun y hy => hks y (List.mem_cons_of_mem x hy))]

/- ------------------------------------------------------------------
Claim C3
------------------------------------------------------------------ -/

/-- C3 counterexample: saving the update `{"AAA": 1, "B": "y"}` over a
file reading `"AAA=123456\nB=x\n"` shrinks the buffer; the untruncated
`"r+"` rewrite leaves the stale bytes `"\nB=x\n"` behind, and re-loading
returns `B = "x"` — not the merged value `"y"`. -/
theorem claim_C3_counterexample :
    retrieve_metadata [] []
        (retrieve_metadata_lines
          (save_metadata (chars "AAA=123456\nB=x\n")
            [(chars "AAA", MVal.int 1), (chars "B", MVal.str (chars "y"))]).1) =
      some [(chars "AAA", MVal.int 1), (chars "B", MVal.str (chars "x"))] ∧
    MVal.str (chars "x") ≠ MVal.str (chars "y") := by
  decide

/-- C3 amended: for a metadata file whose lines are blanks, comments, or
`key=value` with well-formed distinct keys, and an update mapping with
well-formed distinct keys and round-trippable values, the merge law
holds: the merged buffer rewrites each key present in the update in place
on its original line, leaves every other line (blanks and comments
included) verbatim, and appends lines for the keys absent before; and
PROVIDED the merged buffer is at least as long as the previous content
(the untruncated `"r+"` rewrite leaves stale bytes otherwise), re-loading
the saved file yields exactly the merge: updated keys map to their new
values, untouched keys to their previous parsed values. -/
theorem claim_C3 (content : Str) (meta : PyDict)
    (H1 : ∀ l ∈ retrieve_metadata_lines content, wfMetaLine l)
    (H2 : (linesKeys (retrieve_metadata_lines content)).Nodup)
    (H3 : ∀ kv ∈ meta, wfMetaKey kv.1 ∧ wfMetaVal kv.2)
    (H4 : (dictKeys meta).Nodup)
    (H5 : content.length ≤
      (joinLines (update_metadata_lines (retrieve_metadata_lines content) meta)).length) :
    update_metadata_lines (retrieve_metadata_lines content) meta =
      (retrieve_metadata_lines content).map (replLine meta) ++
        ((dictKeys meta).filter
          (fun k => k ∉ linesKeys (retrieve_metadata_lines content))).map
          (fun k => k ++ '=' :: (dictGetD meta k MVal.none).pyStr) ∧
    ∃ m0 m1,
      retrieve_metadata [] [] (retrieve_metadata_lines content) = some m0 ∧
      retrieve_metadata [] []
        (retrieve_metadata_lines (save_metadata content meta).1) = some m1 ∧
      ∀ k, dictGet m1 k =
        match dictGet meta k with
        | some v => some v
        | Option.none => dictGet m0 k := by
  have hmk : ∀ kv ∈ meta, wfMetaKey kv.1 := fun kv h => (H3 kv h).1
  have hmv : ∀ kv ∈ meta, wfMetaVal kv.2 := fun kv h => (H3 kv h).2
  set L0 := retrieve_metadata_lines content with hL0def
  set rem := (dictKeys meta).filter (fun k => k ∉ linesKeys L0) with hremdef
  have hremsub : ∀ x ∈ rem, x ∈ dictKeys meta := fun x hx => (List.mem_filter.mp hx).1
  have hstruct : update_metadata_lines L0 meta =
      L0.map (replLineKs meta (dictKeys meta)) ++
        rem.map (fun k => k ++ '=' :: (dictGetD meta k MVal.none).pyStr) := by
    rw [update_metadata_lines, updLinesGo_wf meta L0 (dictKeys meta) H1 H2 H4]
  have hrepl_fun : replLine meta = replLineKs meta (dictKeys meta) := rfl
  refine ⟨by rw [hstruct, hrepl_fun], ?_⟩
  have hwftail : ∀ l ∈ rem.map (fun k => k ++ '=' :: (dictGetD meta k MVal.none).pyStr),
      wfMetaLine l := by
    intro l hl
    obtain ⟨x, hx, rfl⟩ := List.mem_map.mp hl
    obtain ⟨v, hv, hvmem⟩ := dictGet_of_mem_keys meta x (hremsub x hx)
    have hgetd : dictGetD meta x MVal.none = v := by rw [dictGetD, hv]; rfl
    rw [hgetd]
    exact Or.inr (Or.inr ⟨x, v.pyStr, rfl, hmk (x, v) hvmem,
      (pyStr_wfMetaVal v (hmv (x, v) hvmem)).1, (pyStr_wfMetaVal v (hmv (x, v) hvmem)).2⟩)
  have hwf1 : ∀ l ∈ L0.map (replLineKs meta (dictKeys meta)) ++
      rem.map (fun k => k ++ '=' :: (dictGetD meta k MVal.none).pyStr), wfMetaLine l := by
    intro l hl
    rcases List.mem_append.mp hl with hl | hl
    · obtain ⟨l0, hl0, rfl⟩ := List.mem_map.mp hl
      exact wf_replLine meta hmv l0 (H1 l0 hl0)
    · exact hwftail l hl
  have hkeys1 : linesKeys (L0.map (replLineKs meta (dictKeys meta)) ++
      rem.map (fun k => k ++ '=' :: (dictGetD meta k MVal.none).pyStr)) =
      linesKeys L0 ++ rem := by
    rw [linesKeys, List.filterMap_append]
    rw [show List.filterMap lineKeyOf (L0.map (replLineKs meta (dictKeys meta))) =
      linesKeys (L0.map (replLineKs meta (dictKeys meta))) from rfl]
    rw [show List.filterMap lineKeyOf
        (rem.map (fun k => k ++ '=' :: (dictGetD meta k MVal.none).pyStr)) =
      linesKeys (rem.map (fun k => k ++ '=' :: (dictGetD meta k MVal.none).pyStr)) from rfl]
    rw [linesKeys_map_repl meta L0 H1, linesKeys_tail meta hmk rem hremsub]
  have hnodup1 : (linesKeys (L0.map (replLineKs meta (dictKeys meta)) ++
      rem.map (fun k => k ++ '=' :: (dictGetD meta k MVal.none).pyStr))).Nodup := by
    rw [hkeys1]
    refine List.Nodup.append H2 (H4.filter _) ?_
    intro a ha hrem
    have := (List.mem_filter.mp hrem).2
    exact absurd ha (by simpa using this)
  have hno_nl1 : ∀ l ∈ L0.map (replLineKs meta (dictKeys meta)) ++
      rem.map (fun k => k ++ '=' :: (dictGetD meta k MVal.none).pyStr), '\n' ∉ l := by
    intro l hl
    rcases List.mem_append.mp hl with hl | hl
    · obtain ⟨l0, hl0, rfl⟩ := List.mem_map.mp hl
      rcases H1 l0 hl0 with hblank | hcomment | ⟨k0, v0, rfl, hk, hveq, hvnl⟩
      · subst hblank
        have : replLineKs meta (dictKeys meta) [] = [] := by simp [replLineKs]
        rw [this]
        simp
      · have : replLineKs meta (dictKeys meta) l0 = l0 := by simp [replLineKs, hcomment]
        rw [this]
        exact retrieve_metadata_lines_no_nl content l0 hl0
      · have hlk : lineKey (k0 ++ '=' :: v0) = k0 := lineKey_pair k0 v0 hk.2.1
        have hcomm : lineIsComment (k0 ++ '=' :: v0) = false := by
          rw [lineIsComment_append k0 _ hk.1]
          exact hk.2.2.2.2
        by_cases hmem : k0 ∈ dictKeys meta
        · obtain ⟨v, hv, hvmem⟩ := dictGet_of_mem_keys meta k0 hmem
          have hgetd : dictGetD meta k0 MVal.none = v := by rw [dictGetD, hv]; rfl
          have hrepl : replLineKs meta (dictKeys meta) (k0 ++ '=' :: v0) =
              k0 ++ '=' :: v.pyStr := by
            rw [replLineKs, if_pos ⟨by simp [hcomm], by simp, by rw [hlk]; exact hmem⟩,
              hlk, hgetd]
          rw [hrepl]
          intro hmemnl
          rcases List.mem_append.mp hmemnl with hm | hm
          · exact hk.2.2.1 hm
          · rcases List.mem_cons.mp hm with hm | hm
            · exact absurd hm (by decide)
            · exact (pyStr_wfMetaVal v (hmv (k0, v) hvmem)).2 hm
        · have hrepl : replLineKs meta (dictKeys meta) (k0 ++ '=' :: v0) =
              k0 ++ '=' :: v0 := by
            rw [replLineKs, if_neg]
            rintro ⟨-, -, hin⟩
            exact hmem (hlk ▸ hin)
          rw [hrepl]
          exact retrieve_metadata_lines_no_nl content _ hl0
    · obtain ⟨x, hx, rfl⟩ := List.mem_map.mp hl
      obtain ⟨v, hv, hvmem⟩ := dictGet_of_mem_keys meta x (hremsub x hx)
      have hgetd : dictGetD meta x MVal.none = v := by rw [dictGetD, hv]; rfl
      rw [hgetd]
      intro hmemnl
      rcases List.mem_append.mp hmemnl with hm | hm
      · exact (hmk (x, v) hvmem).2.2.1 hm
      · rcases List.mem_cons.mp hm with hm | hm
        · exact absurd hm (by decide)
        · exact (pyStr_wfMetaVal v (hmv (x, v) hvmem)).2 hm
  have hcontent1 : (save_metadata content meta).1 =
      joinLines (L0.map (replLineKs meta (dictKeys meta)) ++
        rem.map (fun k => k ++ '=' :: (dictGetD meta k MVal.none).pyStr)) := by
    show overlayWrite content (joinLines (update_metadata_lines L0 meta)) = _
    rw [hstruct] at H5 ⊢
    rw [overlayWrite, List.drop_eq_nil_iff.mpr H5, List.append_nil]
  have hlines1 : retrieve_metadata_lines (save_metadata content meta).1 =
      L0.map (replLineKs meta (dictKeys meta)) ++
        rem.map (fun k => k ++ '=' :: (dictGetD meta k MVal.none).pyStr) := by
    rw [hcontent1, retrieve_metadata_lines_joinLines _ hno_nl1]
  obtain ⟨m0, hm0, hval0⟩ := parse_wf L0 [] H1 H2
  obtain ⟨m1, hm1, hval1⟩ := parse_wf _ [] hwf1 hnodup1
  refine ⟨m0, m1, hm0, by rw [retrieve_metadata, hlines1]; exact hm1, ?_⟩
  intro k
  rw [hval1 k, List.filterMap_append, lookupFirst_append]
  by_cases hkm : k ∈ dictKeys meta
  · obtain ⟨v, hv, hvmem⟩ := dictGet_of_mem_keys meta k hkm
    have hgetd : dictGetD meta k MVal.none = v := by rw [dictGetD, hv]; rfl
    rw [hv]
    by_cases hkl : k ∈ linesKeys L0
    · obtain ⟨raw, hraw⟩ := lookupFirst_some_of_mem (L0.filterMap lineKV) k
        (by rw [pairsKeys_eq L0 H1]; exact hkl)
      have hpre : lookupFirst ((L0.map (replLineKs meta (dictKeys meta))).filterMap lineKV) k =
          some ((dictGetD meta k MVal.none).pyStr) := by
        rw [lookup_repl meta hmv L0 H1 k, hraw]
        show some (if k ∈ dictKeys meta then (dictGetD meta k MVal.none).pyStr else raw) = _
        rw [if_pos hkm]
      rw [hpre]
      show some (convert_to_int_or_leave_unchanged
        (pyStrip (dictGetD meta k MVal.none).pyStr)) = some v
      rw [hgetd, conv_strip_pyStr v (hmv (k, v) hvmem)]
    · have hnone : lookupFirst (L0.filterMap lineKV) k = Option.none :=
        lookupFirst_eq_none _ _ (by rw [pairsKeys_eq L0 H1]; exact hkl)
      have hpre : lookupFirst ((L0.map (replLineKs meta (dictKeys meta))).filterMap lineKV) k =
          Option.none := by
        rw [lookup_repl meta hmv L0 H1 k, hnone]
      rw [hpre]
      have hkrem : k ∈ rem := List.mem_filter.mpr ⟨hkm, by simpa using hkl⟩
      rw [lookup_tail meta hmk hmv rem hremsub k, if_pos hkrem]
      show some (convert_to_int_or_leave_unchanged
        (pyStrip (dictGetD meta k MVal.none).pyStr)) = some v
      rw [hgetd, conv_strip_pyStr v (hmv (k, v) hvmem)]
  · rw [dictGet_none_of_not_mem_keys meta k hkm]
    cases hlk : lookupFirst (L0.filterMap lineKV) k with
    | some raw =>
      have hpre : lookupFirst ((L0.map (replLineKs meta (dictKeys meta))).filterMap lineKV) k =
          some raw := by
        rw [lookup_repl meta hmv L0 H1 k, hlk]
        show some (if k ∈ dictKeys meta then (dictGetD meta k MVal.none).pyStr else raw) = _
        rw [if_neg hkm]
      rw [hpre, hval0 k, hlk]
    | none =>
      have hpre : lookupFirst ((L0.map (replLineKs meta (dictKeys meta))).filterMap lineKV) k =
          Option.none := by
        rw [lookup_repl meta hmv L0 H1 k, hlk]
      rw [hpre]
      have hknotrem : k ∉ rem := fun hc => hkm (hremsub k hc)
      rw [lookup_tail meta hmk hmv rem hremsub k, if_neg hknotrem, hval0 k, hlk]

theorem pySplit_single_inv (sep : Char) :
    ∀ (s x : Str), pySplit sep s = [x] → s = x ∧ sep ∉ x := by
  intro s
  induction s with
  | nil =>
    intro x h
    simp only [pySplit, List.cons.injEq, and_true] at h
    subst h
    exact ⟨rfl, List.not_mem_nil sep⟩
  | cons c cs ih =>
    intro x h
    by_cases hc : c = sep
    · rw [pySplit, if_pos hc] at h
      simp only [List.cons.injEq] at h
      exact absurd h.2 (pySplit_ne_nil sep cs)
    · rw [pySplit, if_neg hc] at h
      cases hrest : pySplit sep cs with
      | nil => exact absurd hrest (pySplit_ne_nil sep cs)
      | cons q qs =>
        rw [hrest] at h
        simp only [List.cons.injEq] at h
        obtain ⟨hq, hqs⟩ := h
        subst hq
        subst hqs
        obtain ⟨hcs, hsep⟩ := ih q hrest
        subst hcs
        refine ⟨rfl, ?_⟩
        intro hm
        rcases List.mem_cons.mp hm with hm | hm
        · exact hc hm.symm
        · exact hsep hm

theorem pySplit_pair_inv (sep : Char) :
    ∀ (s p v : Str), pySplit sep s = [p, v] →
      s = p ++ sep :: v ∧ sep ∉ p ∧ sep ∉ v := by
  intro s
  induction s with
  | nil =>
    intro p v h
    simp [pySplit] at h
  | cons c cs ih =>
    intro p v h
    by_cases hc : c = sep
    · rw [pySplit, if_pos hc] at h
      simp only [List.cons.injEq] at h
      obtain ⟨hp, hrest⟩ := h
      obtain ⟨hcs, hv⟩ := pySplit_single_inv sep cs v hrest
      subst hp
      subst hcs
      subst hc
      exact ⟨rfl, List.not_mem_nil c, hv⟩
    · rw [pySplit, if_neg hc] at h
      cases hrest : pySplit sep cs with
      | nil => exact absurd hrest (pySplit_ne_nil sep cs)
      | cons q qs =>
        rw [hrest] at h
        simp only [List.cons.injEq] at h
        obtain ⟨hq, hqs⟩ := h
        subst hq
        obtain ⟨hcs, hq2, hv⟩ := ih q v (by rw [hrest, hqs])
        subst hcs
        refine ⟨rfl, ?_, hv⟩
        intro hm
        rcases List.mem_cons.mp hm with hm | hm
        · exact hc hm.symm
        · exact hq2 hm

theorem wfMetaLine_iff (l : Str) :
    wfMetaLine l ↔
      (l = [] ∨ lineIsComment l = true ∨
        ((pySplit '=' l).length = 2 ∧ wfMetaKey ((pySplit '=' l).headD []) ∧
          '\n' ∉ (pySplit '=' l).getD 1 [])) := by
  constructor
  · rintro (hblank | hcomment | ⟨k, v, rfl, hk, hveq, hvnl⟩)
    · exact Or.inl hblank
    · exact Or.inr (Or.inl hcomment)
    · refine Or.inr (Or.inr ?_)
      rw [pySplit_pair '=' k v hk.2.1 hveq]
      exact ⟨rfl, hk, hvnl⟩
  · rintro (hblank | hcomment | ⟨hlen, hkey, hnl⟩)
    · exact Or.inl hblank
    · exact Or.inr (Or.inl hcomment)
    · rcases hsp : pySplit '=' l with _ | ⟨a, _ | ⟨b, _ | ⟨c, tl⟩⟩⟩ <;>
        rw [hsp] at hlen <;> try simp at hlen
      obtain ⟨hl, ha, hb⟩ := pySplit_pair_inv '=' l a b hsp
      rw [hsp] at hkey hnl
      exact Or.inr (Or.inr ⟨a, b, hl, hkey, hb, hnl⟩)

instance : DecidablePred wfMetaLine := fun l =>
  decidable_of_iff _ (wfMetaLine_iff l).symm

/-- Witness for C3 at a concrete metadata file: updating
`{"Offset": 20, "New": "x"}` over a file reading
`"# c\nOffset=0\nGPS=old\n"` rewrites `Offset` in place on its original
line, keeps the comment and the untouched `GPS` line verbatim, and
appends `New=x` at the end. -/
theorem claim_C3_witness :
    update_metadata_lines (retrieve_metadata_lines (chars "# c\nOffset=0\nGPS=old\n"))
        [(chars "Offset", MVal.int 20), (chars "New", MVal.str (chars "x"))] =
      (retrieve_metadata_lines (chars "# c\nOffset=0\nGPS=old\n")).map
          (replLine [(chars "Offset", MVal.int 20), (chars "New", MVal.str (chars "x"))]) ++
        ((dictKeys [(chars "Offset", MVal.int 20), (chars "New", MVal.str (chars "x"))]).filter
          (fun k => k ∉ linesKeys (retrieve_metadata_lines (chars "# c\nOffset=0\nGPS=old\n")))).map
          (fun k => k ++ '=' ::
            (dictGetD [(chars "Offset", MVal.int 20), (chars "New", MVal.str (chars "x"))] k
              MVal.none).pyStr) :=
  (claim_C3 (chars "# c\nOffset=0\nGPS=old\n")
    [(chars "Offset", MVal.int 20), (chars "New", MVal.str (chars "x"))]
    (by decide) (by decide) (by decide) (by decide) (by decide)).1

/- ------------------------------------------------------------------
Case analysis of one upload_file pass (C1 / C2)
------------------------------------------------------------------ -/

theorem upload_file_cases (content path : Str) (sink : Nat → Bool) (connected : Bool)
    (st : CTMState) (out : PassOut)
    (h : upload_file content path sink connected st = some out) :
    ∃ p, resumePos st.mem = some p ∧
      ((connected = false ∧
        out = ⟨dictInsert st.mem (chars "Offset") (MVal.int ((max p content.length : Nat) : Int)),
               st.disk, [], false⟩) ∨
       (connected = true ∧
        (∃ k, firstFailure sink (pyReadlines (content.drop p)).length = some k ∧
          out = ⟨dictInsert st.mem (chars "Offset") (MVal.int ((max p content.length : Nat) : Int)),
                 st.disk, (pyReadlines (content.drop p)).take k, true⟩)) ∨
       (connected = true ∧
        firstFailure sink (pyReadlines (content.drop p)).length = Option.none ∧
        out = ⟨dictInsert (dictInsert st.mem (chars "Offset")
                  (MVal.int ((max p content.length : Nat) : Int))) (chars "Offset") MVal.none,
               dictUpdate st.disk
                 [(chars "LastUploadFile", MVal.str path),
                  (chars "Offset",
                    dictGetD (dictInsert st.mem (chars "Offset")
                      (MVal.int ((max p content.length : Nat) : Int))) (chars "Offset") (MVal.int 0))],
               pyReadlines (content.drop p), false⟩)) := by
  cases hg : dictGetD st.mem (chars "Offset") (MVal.int 0) with
  | str s =>
    simp only [upload_file, hg] at h
    cases h
  | int i =>
    simp only [upload_file, hg] at h
    by_cases hneg : i < 0
    · have hmr : mdbReadlines content st.mem 0 (some i) = Option.none := by
        show (if i < 0 then Option.none else
          some (pyReadlines (content.drop i.toNat),
            dictInsert st.mem (chars "Offset") (MVal.int ((max i.toNat content.length : Nat) : Int)),
            max i.toNat content.length)) = Option.none
        rw [if_pos hneg]
      simp only [hmr] at h
      cases h
    · have hmr : mdbReadlines content st.mem 0 (some i) =
          some (pyReadlines (content.drop i.toNat),
            dictInsert st.mem (chars "Offset") (MVal.int ((max i.toNat content.length : Nat) : Int)),
            max i.toNat content.length) := by
        show (if i < 0 then Option.none else
          some (pyReadlines (content.drop i.toNat),
            dictInsert st.mem (chars "Offset") (MVal.int ((max i.toNat content.length : Nat) : Int)),
            max i.toNat content.length)) = _
        rw [if_neg hneg]
      simp only [hmr] at h
      refine ⟨i.toNat, by simp only [resumePos, hg, if_neg hneg], ?_⟩
      cases connected with
      | false =>
        rw [if_neg (by simp)] at h
        exact Or.inl ⟨rfl, (Option.some.inj h).symm⟩
      | true =>
        rw [if_pos rfl] at h
        cases hf : firstFailure sink (pyReadlines (content.drop i.toNat)).length with
        | some k =>
          rw [hf] at h
          exact Or.inr (Or.inl ⟨rfl, k, rfl, (Option.some.inj h).symm⟩)
        | none =>
          rw [hf] at h
          exact Or.inr (Or.inr ⟨rfl, rfl, (Option.some.inj h).symm⟩)
  | none =>
    simp only [upload_file, hg] at h
    have hmr : mdbReadlines content st.mem 0 Option.none =
        some (pyReadlines (content.drop 0),
          dictInsert st.mem (chars "Offset") (MVal.int ((max 0 content.length : Nat) : Int)),
          max 0 content.length) := rfl
    simp only [hmr] at h
    refine ⟨0, by simp only [resumePos, hg], ?_⟩
    cases connected with
    | false =>
      rw [if_neg (by simp)] at h
      exact Or.inl ⟨rfl, (Option.some.inj h).symm⟩
    | true =>
      rw [if_pos rfl] at h
      cases hf : firstFailure sink (pyReadlines (content.drop 0)).length with
      | some k =>
        rw [hf] at h
        exact Or.inr (Or.inl ⟨rfl, k, rfl, (Option.some.inj h).symm⟩)
      | none =>
        rw [hf] at h
        exact Or.inr (Or.inr ⟨rfl, rfl, (Option.some.inj h).symm⟩)

theorem dictGet_dictUpdate_not_mem (d : PyDict) (k : Str) (h : k ∉ dictKeys d) :
    ∀ m, dictGet (dictUpdate m d) k = dictGet m k := by
  induction d with
  | nil => intro m; rfl
  | cons kv rest ih =>
    intro m
    obtain ⟨a, b⟩ := kv
    have ha : ¬a = k := fun hc => h (by rw [hc]; exact List.mem_cons_self k _)
    show dictGet (dictUpdate (dictInsert m a b) rest) k = dictGet m k
    rw [ih (fun hm => h (List.mem_cons_of_mem a hm)) (dictInsert m a b),
      dictGet_dictInsert_ne m a k b (fun hc => ha hc.symm)]

theorem dictGet_dictUpdate_mem (d : PyDict) (k : Str) (v : MVal)
    (hnd : (dictKeys d).Nodup) (h : dictGet d k = some v) :
    ∀ m, dictGet (dictUpdate m d) k = some v := by
  induction d with
  | nil => cases h
  | cons kv rest ih =>
    intro m
    obtain ⟨a, b⟩ := kv
    show dictGet (dictUpdate (dictInsert m a b) rest) k = some v
    by_cases ha : a = k
    · subst ha
      rw [dictGet, if_pos rfl] at h
      have hnotin : a ∉ dictKeys rest := (List.nodup_cons.mp hnd).1
      rw [dictGet_dictUpdate_not_mem rest a hnotin (dictInsert m a b),
        dictGet_dictInsert_self]
      exact h
    · rw [dictGet, if_neg ha] at h
      exact ih (List.nodup_cons.mp hnd).2 h (dictInsert m a b)

/- ------------------------------------------------------------------
Claim C1
------------------------------------------------------------------ -/

/-- C1 counterexample: `upload_file` persists nothing per line. In a pass
over `"a=1\nb=2\n"` from persisted offset 0 whose sink confirms the first
line and fails on the second, the returned state shows one confirmed
record yet a persisted offset still 0 (not 4): no per-line persist
happened. And if the process crashes after BOTH lines are confirmed but
before the single end-of-pass save, the restart pass (reading from the
unchanged persisted offset 0) re-reads both confirmed records — two
confirmed-delivered records are redelivered, not at most one. -/
theorem claim_C1_counterexample :
    upload_file (chars "a=1\nb=2\n") (chars "/f") (fun i => i = 0) true
        ⟨retrieveInto [] [(chars "LastUploadFile", MVal.str (chars "/f")),
            (chars "Offset", MVal.int 0)],
         [(chars "LastUploadFile", MVal.str (chars "/f")), (chars "Offset", MVal.int 0)]⟩ =
      some ⟨[(chars "LastUploadFile", MVal.str (chars "/f")), (chars "Offset", MVal.int 8)],
            [(chars "LastUploadFile", MVal.str (chars "/f")), (chars "Offset", MVal.int 0)],
            [chars "a=1\n"], true⟩ ∧
    MVal.int 0 ≠ MVal.int 4 ∧
    passLines (chars "a=1\nb=2\n")
        (retrieveInto [] [(chars "LastUploadFile", MVal.str (chars "/f")),
          (chars "Offset", MVal.int 0)]) =
      [chars "a=1\n", chars "b=2\n"] ∧
    ([chars "a=1\n", chars "b=2\n"] : List Str).length = 2 := by
  decide

/-- C1 amended: the batch path persists AT MOST ONCE PER FILE, after the
whole pass: (1) any pass that raises (sink failure part-way) leaves the
persisted metadata exactly as it was, no matter how many lines were
already confirmed, and its confirmed lines are a prefix of the pass's
read; (2) the persisted metadata can only change in a pass that raised no
error and confirmed EVERY line it read; (3) a restart that resumes from
the same position re-reads the same prefix — so after a crash between a
confirmation and the single save, every record confirmed in the pass is
redelivered, a bound of one whole file, not one record. -/
theorem claim_C1 :
    (∀ (content path : Str) (sink : Nat → Bool) (connected : Bool)
       (st : CTMState) (out : PassOut),
       upload_file content path sink connected st = some out →
       out.raised = true →
       out.disk = st.disk ∧
       ∃ p k, resumePos st.mem = some p ∧
         out.confirmed = (pyReadlines (content.drop p)).take k) ∧
    (∀ (content path : Str) (sink : Nat → Bool) (connected : Bool)
       (st : CTMState) (out : PassOut),
       upload_file content path sink connected st = some out →
       out.disk ≠ st.disk →
       out.raised = false ∧ ∃ p, resumePos st.mem = some p ∧
         out.confirmed = pyReadlines (content.drop p)) ∧
    (∀ (content : Str) (m1 m2 : PyDict) (c : Nat),
       resumePos m1 = resumePos m2 →
       (passLines content m1).take c = (passLines content m2).take c) := by
  refine ⟨?_, ?_, ?_⟩
  · intro content path sink connected st out h hraised
    obtain ⟨p, hp, hcase⟩ := upload_file_cases content path sink connected st out h
    rcases hcase with ⟨-, hout⟩ | ⟨-, k, hk, hout⟩ | ⟨-, -, hout⟩
    · rw [hout] at hraised
      cases hraised
    · rw [hout]
      exact ⟨rfl, p, k, hp, rfl⟩
    · rw [hout] at hraised
      cases hraised
  · intro content path sink connected st out h hdisk
    obtain ⟨p, hp, hcase⟩ := upload_file_cases content path sink connected st out h
    rcases hcase with ⟨-, hout⟩ | ⟨-, k, hk, hout⟩ | ⟨-, -, hout⟩
    · rw [hout] at hdisk
      exact absurd rfl hdisk
    · rw [hout] at hdisk
      exact absurd rfl hdisk
    · rw [hout]
      exact ⟨rfl, p, hp, rfl⟩
  · intro content m1 m2 c hres
    rw [passLines, passLines, hres]

/-- Witness for C1 at the failing pass of the counterexample scenario:
part (1) applied there shows the persisted metadata is unchanged. -/
theorem claim_C1_witness :
    ([(chars "LastUploadFile", MVal.str (chars "/f")), (chars "Offset", MVal.int 0)] :
        PyDict) =
      [(chars "LastUploadFile", MVal.str (chars "/f")), (chars "Offset", MVal.int 0)] :=
  (claim_C1.1 (chars "a=1\nb=2\n") (chars "/f") (fun i => i = 0) true
    ⟨[(chars "LastUploadFile", MVal.str (chars "/f")), (chars "Offset", MVal.int 0)],
     [(chars "LastUploadFile", MVal.str (chars "/f")), (chars "Offset", MVal.int 0)]⟩
    ⟨[(chars "LastUploadFile", MVal.str (chars "/f")), (chars "Offset", MVal.int 8)],
     [(chars "LastUploadFile", MVal.str (chars "/f")), (chars "Offset", MVal.int 0)],
     [chars "a=1\n"], true⟩ (by decide) (by decide)).1

/- ------------------------------------------------------------------
Claim C2
------------------------------------------------------------------ -/

/-- C2 counterexample: a sink failure part-way does NOT leave the resume
point unchanged, and a record can be lost. Starting with persisted
metadata holding only `LastUploadFile` (no `Offset` entry), a pass over
`"a=1\nb=2\n"` whose sink fails on the second line leaves the persisted
metadata untouched but advances the in-memory `Offset` to 8 (end of
file) BEFORE any delivery; the next cycle's `retrieve_metadata` cannot
restore `Offset` (it is not on disk), so the cycle resumes at 8, reads
and confirms nothing, and persists `Offset=8` — the never-delivered
record `"b=2\n"` is skipped forever. -/
theorem claim_C2_counterexample :
    upload_file (chars "a=1\nb=2\n") (chars "/f") (fun i => i = 0) true
        ⟨[(chars "LastUploadFile", MVal.str (chars "/old"))],
         [(chars "LastUploadFile", MVal.str (chars "/old"))]⟩ =
      some ⟨[(chars "LastUploadFile", MVal.str (chars "/old")),
              (chars "Offset", MVal.int 8)],
            [(chars "LastUploadFile", MVal.str (chars "/old"))],
            [chars "a=1\n"], true⟩ ∧
    resumePos (retrieveInto
        [(chars "LastUploadFile", MVal.str (chars "/old")), (chars "Offset", MVal.int 8)]
        [(chars "LastUploadFile", MVal.str (chars "/old"))]) = some 8 ∧
    some (8 : Nat) ≠ some (0 : Nat) ∧
    upload_file (chars "a=1\nb=2\n") (chars "/f") (fun _ => true) true
        ⟨retrieveInto
          [(chars "LastUploadFile", MVal.str (chars "/old")), (chars "Offset", MVal.int 8)]
          [(chars "LastUploadFile", MVal.str (chars "/old"))],
         [(chars "LastUploadFile", MVal.str (chars "/old"))]⟩ =
      some ⟨[(chars "LastUploadFile", MVal.str (chars "/old")),
              (chars "Offset", MVal.none)],
            [(chars "LastUploadFile", MVal.str (chars "/f")), (chars "Offset", MVal.int 8)],
            [], false⟩ ∧
    chars "b=2\n" ∉ ([chars "a=1\n"] ++ ([] : List Str)) := by
  decide

/-- C2 amended: when the sink fails part-way through a pass, the
PERSISTED metadata does not move; the in-memory overlay's `Offset` has
already advanced to end of file, but when the persisted metadata contains
an `Offset` entry (with distinct keys), the next cycle's
`retrieve_metadata` restores it, and a cycle resuming from the same
persisted offset re-reads exactly the same lines — the failed line is
retried and nothing is lost. (Without a persisted `Offset` entry the
stale advanced offset survives and records can be lost — see the
counterexample.) -/
theorem claim_C2 :
    ∀ (content path : Str) (sink : Nat → Bool) (connected : Bool)
      (st : CTMState) (out : PassOut),
      upload_file content path sink connected st = some out →
      out.raised = true →
      out.disk = st.disk ∧
      ((dictKeys st.disk).Nodup →
        ∀ v, dictGet st.disk (chars "Offset") = some v →
          dictGet (retrieveInto out.mem st.disk) (chars "Offset") = some v) ∧
      (∀ o : Int, ¬o < 0 →
        (dictKeys st.disk).Nodup →
        dictGet st.disk (chars "Offset") = some (MVal.int o) →
        resumePos st.mem = some o.toNat →
        passLines content (retrieveInto out.mem st.disk) = passLines content st.mem) := by
  intro content path sink connected st out h hraised
  obtain ⟨p, hp, hcase⟩ := upload_file_cases content path sink connected st out h
  have hdisk : out.disk = st.disk := by
    rcases hcase with ⟨-, hout⟩ | ⟨-, k, hk, hout⟩ | ⟨-, -, hout⟩
    · rw [hout]
    · rw [hout]
    · rw [hout] at hraised
      cases hraised
  refine ⟨hdisk, ?_, ?_⟩
  · intro hnd v hv
    exact dictGet_dictUpdate_mem st.disk (chars "Offset") v hnd hv out.mem
  · intro o ho hnd hv hres
    have hget : dictGet (retrieveInto out.mem st.disk) (chars "Offset") =
        some (MVal.int o) :=
      dictGet_dictUpdate_mem st.disk (chars "Offset") (MVal.int o) hnd hv out.mem
    have hres2 : resumePos (retrieveInto out.mem st.disk) = some o.toNat := by
      rw [resumePos, dictGetD, hget]
      show (if o < 0 then Option.none else some o.toNat) = some o.toNat
      rw [if_neg ho]
    rw [passLines, passLines, hres2, hres]

/-- Witness for C2: in the counterexample scenario of C1 (persisted
metadata with `Offset=0`), applying the theorem to the failing pass shows
the next cycle's overlay again resolves `Offset` to the persisted 0. -/
theorem claim_C2_witness :
    dictGet (retrieveInto
        [(chars "LastUploadFile", MVal.str (chars "/f")), (chars "Offset", MVal.int 8)]
        [(chars "LastUploadFile", MVal.str (chars "/f")), (chars "Offset", MVal.int 0)])
      (chars "Offset") = some (MVal.int 0) :=
  ((claim_C2 (chars "a=1\nb=2\n") (chars "/f") (fun i => i = 0) true
    ⟨[(chars "LastUploadFile", MVal.str (chars "/f")), (chars "Offset", MVal.int 0)],
     [(chars "LastUploadFile", MVal.str (chars "/f")), (chars "Offset", MVal.int 0)]⟩
    ⟨[(chars "LastUploadFile", MVal.str (chars "/f")), (chars "Offset", MVal.int 8)],
     [(chars "LastUploadFile", MVal.str (chars "/f")), (chars "Offset", MVal.int 0)],
     [chars "a=1\n"], true⟩ (by decide) (by decide)).2.1 (by decide)
    (MVal.int 0) (by decide))

/- ------------------------------------------------------------------
Claims C4 and C8
------------------------------------------------------------------ -/

theorem filterMap_if_eq_filter_map (f : Nat → Nat) (p : Nat → Bool) (l : List Nat) :
    l.filterMap (fun i => if p (f i) then some (f i) else Option.none) =
      (l.map f).filter p := by
  induction l with
  | nil => rfl
  | cons a rest ih =>
    rw [List.filterMap_cons, List.map_cons, List.filter_cons]
    by_cases hp : p (f a)
    · rw [if_pos hp, if_pos hp, ih]
    · rw [if_neg hp, if_neg hp, ih]

/-- C4: for every last-uploaded path whose embedded date is on or before
today, the pending-files sequence is exactly the days in
`[last date, today]` whose log file exists, in strictly increasing date
order: nothing dated before the cursor, nothing existing in range
omitted, and a missing day contributes nothing (and no error). -/
theorem claim_C4 (mode : PathMode) (fs : Nat → Bool) (dbPath lastPath : Str)
    (today y m d : Nat)
    (hparse : parseLastUploadPath mode dbPath lastPath = some (y, m, d))
    (hle : toOrdinal y m d ≤ today) :
    pendingFiles mode fs dbPath lastPath today =
      Except.ok (((List.range (today - toOrdinal y m d + 1)).map
        (fun i => toOrdinal y m d + i)).filter fs) ∧
    (((List.range (today - toOrdinal y m d + 1)).map
        (fun i => toOrdinal y m d + i)).filter fs).Pairwise (· < ·) ∧
    (∀ x ∈ ((List.range (today - toOrdinal y m d + 1)).map
        (fun i => toOrdinal y m d + i)).filter fs,
      toOrdinal y m d ≤ x ∧ x ≤ today ∧ fs x = true) ∧
    (∀ x, toOrdinal y m d ≤ x → x ≤ today → fs x = true →
      x ∈ ((List.range (today - toOrdinal y m d + 1)).map
        (fun i => toOrdinal y m d + i)).filter fs) := by
  refine ⟨?_, ?_, ?_, ?_⟩
  · rw [pendingFiles, hparse]
    simp only [get_unuploaded_files]
    have hn : (((today : Int) - (toOrdinal y m d : Int)) + 1).toNat =
        today - toOrdinal y m d + 1 := by omega
    rw [hn, filterMap_if_eq_filter_map]
  · refine List.Pairwise.filter _ ?_
    rw [List.pairwise_map]
    exact List.Pairwise.imp (fun h => by omega) (List.sorted_lt_range _)
  · intro x hx
    obtain ⟨hmem, hfs⟩ := List.mem_filter.mp hx
    obtain ⟨i, hi, rfl⟩ := List.mem_map.mp hmem
    have := List.mem_range.mp hi
    exact ⟨by omega, by omega, hfs⟩
  · intro x h1 h2 hfs
    refine List.mem_filter.mpr ⟨?_, hfs⟩
    refine List.mem_map.mpr ⟨x - toOrdinal y m d, List.mem_range.mpr (by omega), by omega⟩

/-- Witness for C4 on a concrete cursor: last uploaded
`data/2024/06/03/inverter/all`, today three days later, with only
even-ordinal days present on disk. -/
theorem claim_C4_witness :
    pendingFiles PathMode.inverter (fun n => n % 2 = 0) (chars "data/")
        (chars "data/2024/06/03/inverter/all") 739042 =
      Except.ok (((List.range (739042 - toOrdinal 2024 6 3 + 1)).map
        (fun i => toOrdinal 2024 6 3 + i)).filter (fun n => n % 2 = 0)) :=
  (claim_C4 PathMode.inverter (fun n => n % 2 = 0) (chars "data/")
    (chars "data/2024/06/03/inverter/all") 739042 2024 6 3
    (by decide) (by decide)).1

/-- C8: computing the pending files fails with the cursor-parse error
exactly when the last-uploaded path does not match the mode's
date-encoded shape; the failure is a returned error, never an empty
result, so it propagates to the caller instead of being swallowed. -/
theorem claim_C8 (mode : PathMode) (fs : Nat → Bool) (dbPath lastPath : Str)
    (today : Nat) :
    (pendingFiles mode fs dbPath lastPath today =
        Except.error CursorError.parseError ↔
      parseLastUploadPath mode dbPath lastPath = Option.none) ∧
    (parseLastUploadPath mode dbPath lastPath = Option.none →
      ∀ L, pendingFiles mode fs dbPath lastPath today ≠ Except.ok L) := by
  constructor
  · constructor
    · intro h
      cases hp : parseLastUploadPath mode dbPath lastPath with
      | none => rfl
      | some t =>
        obtain ⟨y, m, d⟩ := t
        rw [pendingFiles, hp] at h
        cases h
    · intro hp
      rw [pendingFiles, hp]
  · intro hp L
    rw [pendingFiles, hp]
    intro h
    cases h

/-- Witness for C8: a last-uploaded path written under the `dev` naming
scheme does not parse under the `inverter` mode, and the pending-files
computation then returns the error, never a (even empty) result list. -/
theorem claim_C8_witness :
    pendingFiles PathMode.inverter (fun _ => true) (chars "data/")
        (chars "data/2024/06/03/dev/all") 739042 ≠ Except.ok [] :=
  (claim_C8 PathMode.inverter (fun _ => true) (chars "data/")
    (chars "data/2024/06/03/dev/all") 739042).2 (by decide) []
